import Mathlib

/-!
# Verification of the cedar-sqlizer residual-to-SQL translator

A shallow embedding of `jaredzhou/cedar-sqlizer` (Go), covering:

* the SQL fragment algebra of `sqlizer/sqlizer.go` (`expr`, `part`,
  `concatExpr`, `conj`, the `Expr`/`AndExpr`/`OrExpr` constructors and their
  `ToSql` renderers),
* the residual reducer `toSqlOrValue` / `ToSql` of the same file, and
* the policy combiner `AuthorizeSQL` / `partial` of the `cedarsqlizer`
  package.

Modelling conventions:

* Go strings are `List Char` (named `Str` here); Go `[]interface{}` argument
  lists are `List EArg`.
* Go `error` returns are `Option Err` / `Except` values; a Go `panic`
  (including a method call on a nil `Sqlizer` interface and the arity panic in
  `Expr`) is modelled as a distinguished abnormal outcome, since a panic
  aborts the whole computation without returning a value.
* Functions of the external `cedar-go` library (the concrete evaluator
  `eval.Eval`, the partial evaluator `eval.PartialPolicy`, `eval.Variable` /
  `eval.ToVariable`) are modelled from their documented behaviour and the
  spec; they carry a `Modelled from the spec:` note in their doc comment.
-/

set_option maxHeartbeats 1000000

namespace CedarSqlizer

/-- Go strings, modelled as character lists so that the placeholder scanning
in `expr.ToSql` / `countPlaceholders` can be written by recursion. -/
abbrev Str := List Char

/-- Number of `'?'` characters in a string (escaped or not). -/
def charQ : Str → Nat
  | [] => 0
  | c :: rest => (if c = '?' then 1 else 0) + charQ rest

/-- `countPlaceholders` from `sqlizer/sqlizer.go`: counts `?` placeholders in
a SQL template, skipping escaped `??` pairs. -/
def countPlaceholders : Str → Nat
  | [] => 0
  | '?' :: '?' :: rest => countPlaceholders rest
  | '?' :: rest => 1 + countPlaceholders rest
  | _ :: rest => countPlaceholders rest

/-- `strings.ReplaceAll(sql, "??", "?")`, used by `expr.processEscapedSQL`
for templates whose arguments are all scalars. -/
def replaceQQ : Str → Str
  | [] => []
  | '?' :: '?' :: rest => '?' :: replaceQQ rest
  | c :: rest => c :: replaceQQ rest

/-- `"1 = 1"`, the `sqlTrue` constant. -/
def sqlTrue : Str := "1 = 1".toList

/-- `"1 = 0"`, the `sqlFalse` constant. -/
def sqlFalse : Str := "1 = 0".toList

/-- `AndSep = " AND "`. -/
def andSep : Str := " AND ".toList

/-- `OrSep = " OR "`. -/
def orSep : Str := " OR ".toList

/-- The reserved entity type used by `eval.Variable` for unknown subjects.
Modelled from the spec: an `EntityUID` whose type equals this sentinel
denotes an unknown variable. -/
def variableEntityType : Str := "__cedar::variable".toList

/-- Cedar domain values (`cedar.Value`), restricted to the variants the
repository's reducer and marshaller handle: `String`, `Long`, `Boolean`,
`EntityUID`, `Set`, `Record`.  (`Decimal`/`Datetime`/`IPAddr` add nothing to
the claims and are omitted.) -/
inductive Value where
  | str (s : Str)
  | int (n : Int)
  | bool (b : Bool)
  | entity (ty : Str) (id : Str)
  | set (elems : List Value)
  | record (fields : List (Str × Value))
deriving Repr

/-- `eval.ToVariable`: an `EntityUID` whose type is the reserved sentinel is
an unknown variable; returns its name.  Modelled from the spec: the sentinel
test of `cedar-go`. -/
def toVariable : Value → Option Str
  | .entity ty id => if ty = variableEntityType then some id else none
  | _ => none

/-- `eval.Variable(name)`: the sentinel `EntityUID` standing for an unknown
subject.  Modelled from the spec. -/
def mkVariable (name : Str) : Value := .entity variableEntityType name

/-- Go values used as SQL bind arguments (the codomain of
`utils.ValueToGoValue`). -/
inductive GoVal where
  | str (s : Str)
  | int (n : Int)
  | bool (b : Bool)
  | arr (elems : List GoVal)
deriving Repr

/-- Error taxonomy.  The Go code carries formatted messages; only the fact
that an error occurred (and roughly which kind) matters to the claims. -/
inductive Err where
  | typeMismatch
  | unsupportedValue
  | unsupportedNode
  | invalidFieldName
  | partialExtension
  | shapeError
  | evalError
  | partPredError
  | concatElemError
deriving Repr, DecidableEq

/-- Marshal a list of set elements in order with the supplied element
marshaller, propagating errors (helper for `valueToGoValueF`). -/
def goValList (f : Value → Option (Except Err GoVal)) :
    List Value → Option (Except Err (List GoVal))
  | [] => some (.ok [])
  | v :: rest =>
    match f v with
    | none => none
    | some (.error e) => some (.error e)
    | some (.ok g) =>
      match goValList f rest with
      | none => none
      | some (.error e) => some (.error e)
      | some (.ok gs) => some (.ok (g :: gs))

/-- Fueled body of `utils.ValueToGoValue` (fuel is needed only because the
recursion descends through `Set` element lists; `valueToGoValue` below
always supplies enough).  `none` means the fuel ran out. -/
def valueToGoValueF : Nat → Value → Option (Except Err GoVal)
  | 0, _ => none
  | n + 1, v =>
    match v with
    | .str s => some (.ok (.str s))
    | .entity _ id => some (.ok (.str id))
    | .int i => some (.ok (.int i))
    | .bool b => some (.ok (.bool b))
    | .record _ => some (.error .unsupportedValue)
    | .set elems => (goValList (valueToGoValueF n) elems).map (·.map .arr)

mutual
/-- Structural size of a `Value` (computable fuel measure). -/
def valueSize : Value → Nat
  | .str _ => 1
  | .int _ => 1
  | .bool _ => 1
  | .entity _ _ => 1
  | .set elems => 1 + valueListSize elems
  | .record fields => 1 + fieldListSize fields

/-- Size of a list of values. -/
def valueListSize : List Value → Nat
  | [] => 0
  | v :: rest => valueSize v + valueListSize rest

/-- Size of a record field list. -/
def fieldListSize : List (Str × Value) → Nat
  | [] => 0
  | (_, v) :: rest => valueSize v + fieldListSize rest
end

/-- `utils.ValueToGoValue`: marshal a domain value to a SQL bind argument.
`Record` (and in the source `IPAddr`) are unsupported; `Set` marshals its
elements positionally. -/
def valueToGoValue (v : Value) : Except Err GoVal :=
  (valueToGoValueF (valueSize v) v).getD (.error .unsupportedValue)

mutual
/-- An argument of `expr` / `part`: either a Go scalar or a nested
`Sqlizer` (`[]interface{}` in the source). -/
inductive EArg where
  | scalar (v : GoVal)
  | sqlizer (s : Sqlizer)

/-- An element of a `concatExpr` (`[]interface{}` in the source): a Go
string, a `cedar.String`, a nested `Sqlizer`, or anything else (which
errors). -/
inductive CElem where
  | str (s : Str)
  | cstr (s : Str)
  | sqlizer (s : Sqlizer)
  | bad

/-- The predicate of a `part`: `nil`, a string, a `Sqlizer`, or anything
else (which errors). -/
inductive Pred where
  | null
  | str (s : Str)
  | sqlizer (s : Sqlizer)
  | bad

/-- The closed variant type behind the `Sqlizer` interface:
`expr`, `part`, `concatExpr`, `conj`, plus `null` for a nil interface value
(calling `ToSql` on it panics). -/
inductive Sqlizer where
  | expr (sql : Str) (args : List EArg)
  | part (pred : Pred) (args : List EArg)
  | concat (parts : List CElem)
  | conj (parts : List Sqlizer) (sep : Str) (defaultExpr : Str)
  | null
end

/-- Result of rendering a `Sqlizer`: either a Go panic, or the triple
`(sql, args, err)` that `ToSql` returns. -/
inductive RendRes where
  | panic
  | res (sql : Str) (args : List EArg) (err : Option Err)

/-- Prefix `sql`/`args` onto a successful render result. -/
def prepend (sql : Str) (args : List EArg) : Option RendRes → Option RendRes
  | some (.res s a e) => some (.res (sql ++ s) (args ++ a) e)
  | r => r

/-- Does an argument list contain no nested `Sqlizer`?  (the `simple` check
at the top of `expr.ToSql`). -/
def argsSimple : List EArg → Bool
  | [] => true
  | .scalar _ :: rest => argsSimple rest
  | .sqlizer _ :: rest => false

/-- The main loop of `expr.ToSql`, written by recursion on the template:
emits literal characters, collapses `??` to a literal `?` (only while
arguments remain, as in the Go loop), and consumes one argument per
unescaped `?` — splicing nested `Sqlizer`s, emitting `?` and binding
scalars.  When the template or the argument list runs out (or a nested
render returns an error) the remaining template and arguments are appended
verbatim, exactly as the Go loop does.  `rnd` renders nested `Sqlizer`
arguments (the fueled `renderF`). -/
def renderLoop (rnd : Sqlizer → Option RendRes) : Str → List EArg → Option RendRes
  | sp, [] => some (.res sp [] none)
  | [], a :: ap => some (.res [] (a :: ap) none)
  | c :: rest, a :: ap =>
    if c = '?' then
      match rest with
      | c2 :: rest2 =>
        if c2 = '?' then
          -- escaped "??": emit a single '?', keep the argument list
          prepend ['?'] [] (renderLoop rnd rest2 (a :: ap))
        else
          match a with
          | .scalar v => prepend ['?'] [.scalar v] (renderLoop rnd (c2 :: rest2) ap)
          | .sqlizer s =>
            match rnd s with
            | none => none
            | some .panic => some .panic
            | some (.res isql iargs none) =>
              prepend isql iargs (renderLoop rnd (c2 :: rest2) ap)
            | some (.res isql iargs (some e)) =>
              -- the Go loop exits on a nested error, appending the rest of
              -- the template and the unconsumed arguments
              some (.res (isql ++ c2 :: rest2) (iargs ++ ap) (some e))
      | [] =>
        match a with
        | .scalar v => prepend ['?'] [.scalar v] (renderLoop rnd [] ap)
        | .sqlizer s =>
          match rnd s with
          | none => none
          | some .panic => some .panic
          | some (.res isql iargs none) => prepend isql iargs (renderLoop rnd [] ap)
          | some (.res isql iargs (some e)) => some (.res isql (iargs ++ ap) (some e))
    else
      prepend [c] [] (renderLoop rnd rest (a :: ap))

/-- The body of `concatExpr.ToSql`: concatenate strings and rendered nested
`Sqlizer`s; a nested error aborts with `("", nil, err)`. -/
def renderConcat (rnd : Sqlizer → Option RendRes) : List CElem → Option RendRes
  | [] => some (.res [] [] none)
  | .str s :: rest => prepend s [] (renderConcat rnd rest)
  | .cstr s :: rest => prepend s [] (renderConcat rnd rest)
  | .bad :: _ => some (.res [] [] (some .concatElemError))
  | .sqlizer s :: rest =>
    match rnd s with
    | none => none
    | some .panic => some .panic
    | some (.res _ _ (some e)) => some (.res [] [] (some e))
    | some (.res psql pargs none) => prepend psql pargs (renderConcat rnd rest)

/-- Accumulator outcome for the loop of `conj.ToSql`: a panic, an error
(returned as `("", nil, err)` by `conj.ToSql`), or the list of non-empty
part strings together with their arguments. -/
inductive ConjAcc where
  | panic
  | fuel
  | err (e : Err)
  | parts (sqlParts : List Str) (args : List EArg)

/-- The loop of `conj.ToSql`: render each part, abort on error, skip parts
that render to the empty string. -/
def renderConjParts (rnd : Sqlizer → Option RendRes) : List Sqlizer → ConjAcc
  | [] => .parts [] []
  | s :: rest =>
    match rnd s with
    | none => .fuel
    | some .panic => .panic
    | some (.res _ _ (some e)) => .err e
    | some (.res psql pargs none) =>
      if psql = [] then renderConjParts rnd rest
      else
        match renderConjParts rnd rest with
        | .parts sqlParts args => .parts (psql :: sqlParts) (pargs ++ args)
        | other => other

/-- `strings.Join(parts, sep)`. -/
def joinSep (sep : Str) : List Str → Str
  | [] => []
  | [s] => s
  | s :: rest => s ++ sep ++ joinSep sep rest

/-- Fueled renderer for the `Sqlizer` algebra, mirroring the `ToSql`
methods of `expr`, `part`, `concatExpr` and `conj`; `none` means the fuel
ran out (`render` below always supplies enough).  A `Sqlizer.null` — a Go
nil interface — panics when rendered. -/
def renderF : Nat → Sqlizer → Option RendRes
  | 0, _ => none
  | _ + 1, .null => some .panic
  | n + 1, .expr sql args =>
    if argsSimple args then some (.res (replaceQQ sql) args none)
    else renderLoop (renderF n) sql args
  | n + 1, .part pred args =>
    match pred with
    | .null => some (.res [] [] none)
    | .str s => some (.res s args none)
    | .sqlizer s => renderF n s
    | .bad => some (.res [] [] (some .partPredError))
  | n + 1, .concat parts => renderConcat (renderF n) parts
  | n + 1, .conj [] _ dflt => some (.res dflt [] none)
  | n + 1, .conj parts sep _ =>
      match renderConjParts (renderF n) parts with
      | .fuel => none
      | .panic => some .panic
      | .err e => some (.res [] [] (some e))
      | .parts sqlParts args =>
        let sql : Str :=
          if sqlParts = [] then []
          else if sep = andSep then joinSep sep sqlParts
          else '(' :: joinSep sep sqlParts ++ [')']
        some (.res sql args none)

mutual
/-- Structural size of a `Sqlizer` (computable fuel measure for
`renderF`). -/
def sqSize : Sqlizer → Nat
  | .expr _ args => 1 + argListSize args
  | .part pred args => 1 + predSize pred + argListSize args
  | .concat parts => 1 + celemListSize parts
  | .conj parts _ _ => 1 + sqListSize parts
  | .null => 1

/-- Size of an argument. -/
def eargSize : EArg → Nat
  | .scalar _ => 1
  | .sqlizer s => 1 + sqSize s

/-- Size of an argument list. -/
def argListSize : List EArg → Nat
  | [] => 0
  | a :: rest => eargSize a + argListSize rest

/-- Size of a `part` predicate. -/
def predSize : Pred → Nat
  | .sqlizer s => 1 + sqSize s
  | _ => 1

/-- Size of a concat element. -/
def celemSize : CElem → Nat
  | .sqlizer s => 1 + sqSize s
  | _ => 1

/-- Size of a concat element list. -/
def celemListSize : List CElem → Nat
  | [] => 0
  | c :: rest => celemSize c + celemListSize rest

/-- Size of a sqlizer list. -/
def sqListSize : List Sqlizer → Nat
  | [] => 0
  | s :: rest => sqSize s + sqListSize rest
end

/-- Render a `Sqlizer` to `(sql, args, err)` or a panic — the `ToSql`
method, with fuel supplied by the structural size (always sufficient). -/
def render (s : Sqlizer) : RendRes :=
  (renderF (sqSize s) s).getD .panic

/-- Abnormal outcomes during reduction: a Go panic (which aborts without a
return value) or a returned `error` (on which every caller in the source
returns early). -/
inductive RedErr where
  | panic
  | err (e : Err)
deriving Repr, DecidableEq

/-- The reduction monad: early-return on error, abort on panic. -/
abbrev Red (α : Type) := Except RedErr α

/-- The `Expr` smart constructor: panics (`.error .panic`) unless the count
of unescaped `?` in the template equals the number of arguments. -/
def Expr (sql : Str) (args : List EArg) : Red Sqlizer :=
  if countPlaceholders sql = args.length then .ok (.expr sql args)
  else .error .panic

/-- `AndExpr(parts...)`: conjunction with separator `" AND "` and identity
`"1 = 1"`. -/
def AndExpr (parts : List Sqlizer) : Sqlizer := .conj parts andSep sqlTrue

/-- `OrExpr(parts...)`: disjunction with separator `" OR "` and identity
`"1 = 0"`. -/
def OrExpr (parts : List Sqlizer) : Sqlizer := .conj parts orSep sqlFalse

/-- `newPart(pred, args...)` with a string predicate. -/
def newPart (pred : Str) (args : List EArg) : Sqlizer := .part (.str pred) args

/-- The reducer's tri-state `result` struct: `isValue` distinguishes a
concrete value from a SQL fragment; a nil `sqlizer` field is `Sqlizer.null`. -/
structure Result where
  isValue : Bool
  value : Option Value
  sqlizer : Sqlizer

/-- `valueToResult`: the `result` constructor.  A value that is a
variable-sentinel `EntityUID` is rewrapped as a fragment carrying the
variable's name (`Expr(string(variable))`, whose arity check can panic if
the name contains `?`). -/
def valueToResult (isValue : Bool) (value : Option Value) (sqlizer : Sqlizer) :
    Red Result :=
  match value with
  | some v =>
    match toVariable v with
    | some name => do
      let e ← Expr name []
      .ok ⟨false, some v, e⟩
    | none => .ok ⟨isValue, some v, sqlizer⟩
  | none => .ok ⟨isValue, none, sqlizer⟩

/-- `valueIsTrue`: coerce to `cedar.Boolean` (type error otherwise) and
compare with `true`. -/
def valueIsTrue : Option Value → Except Err Bool
  | some (.bool b) => .ok b
  | _ => .error .typeMismatch

/-- `valueIsFalse`: coerce to `cedar.Boolean` and compare with `false`. -/
def valueIsFalse : Option Value → Except Err Bool
  | some (.bool b) => .ok !b
  | _ => .error .typeMismatch

/-- `result.Arg()`: marshal the result's value to a Go bind value. -/
def Result.arg (r : Result) : Red GoVal :=
  match r.value with
  | some v => (valueToGoValue v).mapError .err
  | none => .error (.err .typeMismatch)

/-- The second half of `result.And` (reached when the left side is not a
concrete `true`): a concrete-`true` right side yields the left, otherwise
an `AndExpr` of the two `sqlizer` fields. -/
def Result.andRight (left right : Result) : Red Result :=
  if right.isValue then
    match valueIsTrue right.value with
    | .error e => .error (.err e)
    | .ok true => .ok left
    | .ok false => valueToResult false none (AndExpr [left.sqlizer, right.sqlizer])
  else valueToResult false none (AndExpr [left.sqlizer, right.sqlizer])

/-- `result.And`: short-circuit conjunction of reduced operands.  A `true`
side yields the other side; otherwise an `AndExpr` of the two `sqlizer`
fields is built (a concrete `false` side contributes its nil `sqlizer`). -/
def Result.and (left right : Result) : Red Result :=
  if left.isValue then
    match valueIsTrue left.value with
    | .error e => .error (.err e)
    | .ok true => .ok right
    | .ok false => Result.andRight left right
  else Result.andRight left right

/-- The second half of `result.Or`. -/
def Result.orRight (left right : Result) : Red Result :=
  if right.isValue then
    match valueIsFalse right.value with
    | .error e => .error (.err e)
    | .ok true => .ok left
    | .ok false => valueToResult false none (OrExpr [left.sqlizer, right.sqlizer])
  else valueToResult false none (OrExpr [left.sqlizer, right.sqlizer])

/-- `result.Or`: short-circuit disjunction, dual to `result.And`. -/
def Result.or (left right : Result) : Red Result :=
  if left.isValue then
    match valueIsFalse left.value with
    | .error e => .error (.err e)
    | .ok true => .ok right
    | .ok false => Result.orRight left right
  else Result.orRight left right

/-- `result.Compare`: binary comparison/arithmetic emission; a concrete side
is marshalled to a bind argument on its original side. -/
def Result.compare (left right : Result) (exprStr : Str) : Red Result :=
  if left.isValue then do
    let arg ← left.arg
    let e ← Expr exprStr [.scalar arg, .sqlizer right.sqlizer]
    valueToResult false none e
  else if right.isValue then do
    let arg ← right.arg
    let e ← Expr exprStr [.sqlizer left.sqlizer, .scalar arg]
    valueToResult false none e
  else do
    let e ← Expr exprStr [.sqlizer left.sqlizer, .sqlizer right.sqlizer]
    valueToResult false none e

/-- `result.JsonCompareText` (`contains`/`containsAll`/`containsAny`): the
left side must be a fragment (SQL column); a concrete left is an error. -/
def Result.jsonCompareText (left right : Result) (exprStr : Str) : Red Result :=
  if left.isValue then
    .error (.err .shapeError)
  else if right.isValue then do
    let arg ← right.arg
    let e ← Expr exprStr [.sqlizer left.sqlizer, .scalar arg]
    valueToResult false none e
  else do
    let e ← Expr exprStr [.sqlizer left.sqlizer, .sqlizer right.sqlizer]
    valueToResult false none e

/-- The residual AST (`ast.IsNode` of `cedar-go`), restricted to the node
kinds the reducer handles.  `var` is `NodeTypeVariable`; `inn` is
`NodeTypeIn`; `extensionCall` carries only whether `eval.ToPartialError`
recognises it. -/
inductive Node where
  | value (v : Value)
  | var (name : Str)
  | access (arg : Node) (field : Str)
  | has (arg : Node) (field : Str)
  | not (arg : Node)
  | isEmpty (arg : Node)
  | and (l r : Node)
  | or (l r : Node)
  | eq (l r : Node)
  | ne (l r : Node)
  | gt (l r : Node)
  | ge (l r : Node)
  | lt (l r : Node)
  | le (l r : Node)
  | add (l r : Node)
  | sub (l r : Node)
  | mult (l r : Node)
  | contains (l r : Node)
  | containsAll (l r : Node)
  | containsAny (l r : Node)
  | inn (l r : Node)
  | getTag (l r : Node)
  | like (arg : Node) (pattern : Str)
  | ifThenElse (c t e : Node)
  | is (arg : Node) (ty : Str)
  | isIn (arg : Node) (entity : Node)
  | negate (arg : Node)
  | record (entries : List (Str × Node))
  | set (elems : List Node)
  | extensionCall (isPartialError : Bool)

/-- An entity of the store: uid, attribute map and parent uids. -/
structure Entity where
  ty : Str
  id : Str
  attrs : List (Str × Value)
  parents : List (Str × Str)

/-- `eval.Env`: the entity store plus the four request subjects (any of
which may be bound to a variable-sentinel value). -/
structure Env where
  entities : List Entity
  principal : Value
  action : Value
  resource : Value
  context : Value

/-- A field mapper (`FieldMapper.Map`): rewrite a dotted path or reject
(`none`). -/
abbrev Mapper := Str → Option Str

/-- The identity `DefaultFieldMapper`. -/
def defaultFieldMapper : Mapper := fun s => some s

mutual
/-- Structural equality of values, modelling `cedar.Value` equality.
Modelled from the spec: the external evaluator's equality; for sets and
records it is order-sensitive here (the claims never compare unequal
orderings). -/
def valueBeq : Value → Value → Bool
  | .str a, .str b => a = b
  | .int a, .int b => a = b
  | .bool a, .bool b => a = b
  | .entity ta ia, .entity tb ib => ta = tb ∧ ia = ib
  | .set a, .set b => valueListBeq a b
  | .record a, .record b => fieldListBeq a b
  | _, _ => false

/-- Elementwise equality of value lists. -/
def valueListBeq : List Value → List Value → Bool
  | [], [] => true
  | a :: as', b :: bs' => valueBeq a b && valueListBeq as' bs'
  | _, _ => false

/-- Elementwise equality of record field lists. -/
def fieldListBeq : List (Str × Value) → List (Str × Value) → Bool
  | [], [] => true
  | (ka, va) :: as', (kb, vb) :: bs' => ka = kb && valueBeq va vb && fieldListBeq as' bs'
  | _, _ => false
end

/-- Look up an attribute in an attribute list. -/
def lookupAttr (f : Str) : List (Str × Value) → Option Value
  | [] => none
  | (k, v) :: rest => if k = f then some v else lookupAttr f rest

/-- Look up an entity in the store by uid. -/
def lookupEntity (store : List Entity) (ty id : Str) : Option Entity :=
  match store with
  | [] => none
  | e :: rest => if e.ty = ty ∧ e.id = id then some e else lookupEntity rest ty id

/-- Is `(bty, bid)` an ancestor of (or equal to) `(aty, aid)` in the store
(transitive closure of `parents`, with fuel)?  Modelled from the spec: the
external evaluator's `in` relation on entities. -/
def entityInF (store : List Entity) : Nat → Str × Str → Str × Str → Bool
  | 0, a, b => a = b
  | fuel + 1, a, b =>
    a = b ||
    match lookupEntity store a.1 a.2 with
    | none => false
    | some e => e.parents.any fun p => entityInF store fuel p b

/-- Entity membership with sufficient fuel. -/
def entityIn (store : List Entity) (a b : Str × Str) : Bool :=
  entityInF store store.length a b

/-- Attribute access on a concrete value.  Modelled from the spec: the
external evaluator — record field lookup, or entity-store attribute lookup
(a variable-sentinel uid is not in the store, hence errors). -/
def evalAccess (env : Env) (v : Value) (f : Str) : Except Err Value :=
  match v with
  | .record fields =>
    match lookupAttr f fields with
    | some w => .ok w
    | none => .error .evalError
  | .entity ty id =>
    match lookupEntity env.entities ty id with
    | some e =>
      match lookupAttr f e.attrs with
      | some w => .ok w
      | none => .error .evalError
    | none => .error .evalError
  | _ => .error .typeMismatch

/-- `has` on a concrete value.  Modelled from the spec: records and
entities; a missing entity has no attributes. -/
def evalHas (env : Env) (v : Value) (f : Str) : Except Err Value :=
  match v with
  | .record fields => .ok (.bool (lookupAttr f fields).isSome)
  | .entity ty id =>
    match lookupEntity env.entities ty id with
    | some e => .ok (.bool (lookupAttr f e.attrs).isSome)
    | none => .ok (.bool false)
  | _ => .error .typeMismatch

/-- Integer comparison helper of the modelled evaluator. -/
def evalIntCmp (a b : Value) (cmp : Int → Int → Bool) : Except Err Value :=
  match a, b with
  | .int x, .int y => .ok (.bool (cmp x y))
  | _, _ => .error .typeMismatch

/-- Integer arithmetic helper of the modelled evaluator. -/
def evalIntOp (a b : Value) (op : Int → Int → Int) : Except Err Value :=
  match a, b with
  | .int x, .int y => .ok (.int (op x y))
  | _, _ => .error .typeMismatch

mutual
/-- `eval.Eval`, the external concrete evaluator.  Modelled from the spec:
it is an external collaborator of the translator; this model covers the
node kinds and value types the repository exercises (booleans, longs,
strings, entities, sets, records; `getTag`/`like`/`is`/`isIn` and extension
calls evaluate to an error).  Long arithmetic is unbounded here (overflow
behaviour is irrelevant to the claims). -/
def evalN (env : Env) : Node → Except Err Value
  | .value v => .ok v
  | .var name =>
    if name = "principal".toList then .ok env.principal
    else if name = "action".toList then .ok env.action
    else if name = "resource".toList then .ok env.resource
    else if name = "context".toList then .ok env.context
    else .error .evalError
  | .access a f => do evalAccess env (← evalN env a) f
  | .has a f => do evalHas env (← evalN env a) f
  | .not a => do
    match ← evalN env a with
    | .bool b => .ok (.bool !b)
    | _ => .error .typeMismatch
  | .negate a => do
    match ← evalN env a with
    | .int n => .ok (.int (-n))
    | _ => .error .typeMismatch
  | .and l r => do
    match ← evalN env l with
    | .bool false => .ok (.bool false)
    | .bool true =>
      match ← evalN env r with
      | .bool b => .ok (.bool b)
      | _ => .error .typeMismatch
    | _ => .error .typeMismatch
  | .or l r => do
    match ← evalN env l with
    | .bool true => .ok (.bool true)
    | .bool false =>
      match ← evalN env r with
      | .bool b => .ok (.bool b)
      | _ => .error .typeMismatch
    | _ => .error .typeMismatch
  | .eq l r => do .ok (.bool (valueBeq (← evalN env l) (← evalN env r)))
  | .ne l r => do .ok (.bool !(valueBeq (← evalN env l) (← evalN env r)))
  | .gt l r => do evalIntCmp (← evalN env l) (← evalN env r) (fun a b => b < a)
  | .ge l r => do evalIntCmp (← evalN env l) (← evalN env r) (fun a b => b ≤ a)
  | .lt l r => do evalIntCmp (← evalN env l) (← evalN env r) (fun a b => a < b)
  | .le l r => do evalIntCmp (← evalN env l) (← evalN env r) (fun a b => a ≤ b)
  | .add l r => do evalIntOp (← evalN env l) (← evalN env r) (· + ·)
  | .sub l r => do evalIntOp (← evalN env l) (← evalN env r) (· - ·)
  | .mult l r => do evalIntOp (← evalN env l) (← evalN env r) (· * ·)
  | .contains l r => do
    match ← evalN env l with
    | .set elems =>
      let w ← evalN env r
      .ok (.bool (elems.any (valueBeq · w)))
    | _ => .error .typeMismatch
  | .containsAll l r => do
    match ← evalN env l, ← evalN env r with
    | .set as', .set bs' => .ok (.bool (bs'.all fun b => as'.any (valueBeq · b)))
    | _, _ => .error .typeMismatch
  | .containsAny l r => do
    match ← evalN env l, ← evalN env r with
    | .set as', .set bs' => .ok (.bool (bs'.any fun b => as'.any (valueBeq · b)))
    | _, _ => .error .typeMismatch
  | .isEmpty a => do
    match ← evalN env a with
    | .set elems => .ok (.bool elems.isEmpty)
    | _ => .error .typeMismatch
  | .inn l r => do
    match ← evalN env l, ← evalN env r with
    | .entity ta ia, .entity tb ib => .ok (.bool (entityIn env.entities (ta, ia) (tb, ib)))
    | _, _ => .error .typeMismatch
  | .ifThenElse c t e => do
    match ← evalN env c with
    | .bool true => evalN env t
    | .bool false => evalN env e
    | _ => .error .typeMismatch
  | .record entries => do .ok (.record (← evalFieldList env entries))
  | .set elems => do .ok (.set (← evalNodeList env elems))
  | .getTag _ _ => .error .evalError
  | .like _ _ => .error .evalError
  | .is _ _ => .error .evalError
  | .isIn _ _ => .error .evalError
  | .extensionCall _ => .error .evalError

/-- Evaluate a list of set elements. -/
def evalNodeList (env : Env) : List Node → Except Err (List Value)
  | [] => .ok []
  | n :: rest => do .ok ((← evalN env n) :: (← evalNodeList env rest))

/-- Evaluate a list of record entries. -/
def evalFieldList (env : Env) : List (Str × Node) → Except Err (List (Str × Value))
  | [] => .ok []
  | (k, n) :: rest => do .ok ((k, ← evalN env n) :: (← evalFieldList env rest))
end

/-- `nodeToValue`: run the external evaluator, lifting its error. -/
def nodeToValue (n : Node) (env : Env) : Red Value :=
  (evalN env n).mapError .err

/-- `getBinaryFields`: the operator string and operands of a binary node.
The operator string is computed but discarded by `toSqlBinary` (note that
this table assigns `??&` to `ContainsAll` and `??|` to `ContainsAny`). -/
def getBinaryFields : Node → Option (Str × Node × Node)
  | .and l r => some ("AND".toList, l, r)
  | .or l r => some ("OR".toList, l, r)
  | .eq l r => some ("=".toList, l, r)
  | .ne l r => some ("!=".toList, l, r)
  | .gt l r => some (">".toList, l, r)
  | .ge l r => some (">=".toList, l, r)
  | .lt l r => some ("<".toList, l, r)
  | .le l r => some ("<=".toList, l, r)
  | .add l r => some ("+".toList, l, r)
  | .sub l r => some ("-".toList, l, r)
  | .mult l r => some ("*".toList, l, r)
  | .contains l r => some ("??".toList, l, r)
  | .containsAll l r => some ("??&".toList, l, r)
  | .containsAny l r => some ("??|".toList, l, r)
  | _ => none

/-- The dispatch of `toSqlBinary` after both operands are reduced: if both
are concrete the whole node is evaluated; otherwise `And`/`Or` short-circuit,
comparisons and arithmetic go through `Compare`, and the set operators go
through `JsonCompareText` — with template `"? ??| ?"` for `ContainsAll` and
`"? ??& ?"` for `ContainsAny`, exactly as in the source. -/
def toSqlBinaryTail (node : Node) (leftResult rightResult : Result) (env : Env) :
    Red Result :=
  if leftResult.isValue ∧ rightResult.isValue then do
    let val ← nodeToValue node env
    valueToResult true (some val) .null
  else
  match node with
  | .and _ _ => leftResult.and rightResult
  | .or _ _ => leftResult.or rightResult
  | .eq _ _ => leftResult.compare rightResult "? = ?".toList
  | .ne _ _ => leftResult.compare rightResult "? != ?".toList
  | .gt _ _ => leftResult.compare rightResult "? > ?".toList
  | .ge _ _ => leftResult.compare rightResult "? >= ?".toList
  | .lt _ _ => leftResult.compare rightResult "? < ?".toList
  | .le _ _ => leftResult.compare rightResult "? <= ?".toList
  | .add _ _ => leftResult.compare rightResult "? + ?".toList
  | .sub _ _ => leftResult.compare rightResult "? - ?".toList
  | .mult _ _ => leftResult.compare rightResult "? * ?".toList
  | .contains _ _ => leftResult.jsonCompareText rightResult "? ?? ?".toList
  | .containsAll _ _ => leftResult.jsonCompareText rightResult "? ??| ?".toList
  | .containsAny _ _ => leftResult.jsonCompareText rightResult "? ??& ?".toList
  | _ => .error (.err .unsupportedNode)

/-- The tail of `toAccess` after the argument is reduced: a concrete
argument re-enters the evaluator; a fragment is concatenated with
`"." ++ field`, passed through the mapper, and wrapped as a `part`. -/
def toAccessTail (argResult : Result) (field : Str) (env : Env) (mapper : Mapper) :
    Red Result := do
  if argResult.isValue then
    match argResult.value with
    | some v =>
      let val ← nodeToValue (.access (.value v) field) env
      valueToResult true (some val) .null
    | none => .error (.err .evalError)
  else
    match render (.concat [.sqlizer argResult.sqlizer, .str ".".toList, .cstr field]) with
    | .panic => .error .panic
    | .res _ _ (some e) => .error (.err e)
    | .res sql args none =>
      match mapper sql with
      | none => .error (.err .invalidFieldName)
      | some field' => valueToResult false none (newPart field' args)

/-- The tail of `toSqlHas`: a concrete argument re-enters the evaluator; a
fragment becomes `Expr("? IS NOT NULL", Expr(mappedPath, args...))`. -/
def toSqlHasTail (argResult : Result) (field : Str) (env : Env) (mapper : Mapper) :
    Red Result := do
  if argResult.isValue then
    match argResult.value with
    | some v =>
      let val ← nodeToValue (.has (.value v) field) env
      valueToResult true (some val) .null
    | none => .error (.err .evalError)
  else
    match render (.concat [.sqlizer argResult.sqlizer, .str ".".toList, .cstr field]) with
    | .panic => .error .panic
    | .res _ _ (some e) => .error (.err e)
    | .res sql args none =>
      match mapper sql with
      | none => .error (.err .invalidFieldName)
      | some field' => do
        let inner ← Expr field' args
        let e ← Expr "? IS NOT NULL".toList [.sqlizer inner]
        valueToResult false none e

/-- The tail of `toSqlNot`. -/
def toSqlNotTail (argResult : Result) (env : Env) : Red Result := do
  if argResult.isValue then
    match argResult.value with
    | some v =>
      let val ← nodeToValue (.not (.value v)) env
      valueToResult true (some val) .null
    | none => .error (.err .evalError)
  else
    let e ← Expr "NOT (?)".toList [.sqlizer argResult.sqlizer]
    valueToResult false none e

/-- The tail of `toSqlEmpty`. -/
def toSqlEmptyTail (argResult : Result) (env : Env) : Red Result := do
  if argResult.isValue then
    match argResult.value with
    | some v =>
      let val ← nodeToValue (.isEmpty (.value v)) env
      valueToResult true (some val) .null
    | none => .error (.err .evalError)
  else
    let e ← Expr "? IS NULL".toList [.sqlizer argResult.sqlizer]
    valueToResult false none e

/-- `toSqlVariable`: evaluate the variable (the result may be a sentinel,
which `valueToResult` rewraps as a fragment). -/
def toSqlVariableR (name : Str) (env : Env) : Red Result := do
  let val ← nodeToValue (.var name) env
  valueToResult true (some val) .null

/-- The tail of `toSqlIn`: both concrete re-enters the evaluator; a concrete
left becomes `Expr("? ?? ?", right_sql, left_arg)`; a concrete right is a
shape error; two fragments become `Expr("? ?? ?", right_sql, left_sql)`. -/
def toSqlInTail (leftResult rightResult : Result) (env : Env) : Red Result :=
  if leftResult.isValue ∧ rightResult.isValue then
    match leftResult.value, rightResult.value with
    | some lv, some rv => do
      let val ← nodeToValue (.inn (.value lv) (.value rv)) env
      valueToResult true (some val) .null
    | _, _ => .error (.err .evalError)
  else if leftResult.isValue then do
    let leftArg ← leftResult.arg
    let e ← Expr "? ?? ?".toList [.sqlizer rightResult.sqlizer, .scalar leftArg]
    valueToResult false none e
  else if rightResult.isValue then
    .error (.err .shapeError)
  else do
    let e ← Expr "? ?? ?".toList [.sqlizer rightResult.sqlizer, .sqlizer leftResult.sqlizer]
    valueToResult false none e

/-- `toSqlOrValue`: the recursive residual reducer, dispatching on the node
kind exactly as the source's `switch`. -/
def toSqlOrValue (env : Env) (mapper : Mapper) : Node → Red Result
  | .access a f => do toAccessTail (← toSqlOrValue env mapper a) f env mapper
  | .value v => valueToResult true (some v) .null
  | .not a => do toSqlNotTail (← toSqlOrValue env mapper a) env
  | .var name => toSqlVariableR name env
  | .inn l r => do
    toSqlInTail (← toSqlOrValue env mapper l) (← toSqlOrValue env mapper r) env
  | .and l r => do
    toSqlBinaryTail (.and l r) (← toSqlOrValue env mapper l) (← toSqlOrValue env mapper r) env
  | .or l r => do
    toSqlBinaryTail (.or l r) (← toSqlOrValue env mapper l) (← toSqlOrValue env mapper r) env
  | .eq l r => do
    toSqlBinaryTail (.eq l r) (← toSqlOrValue env mapper l) (← toSqlOrValue env mapper r) env
  | .ne l r => do
    toSqlBinaryTail (.ne l r) (← toSqlOrValue env mapper l) (← toSqlOrValue env mapper r) env
  | .gt l r => do
    toSqlBinaryTail (.gt l r) (← toSqlOrValue env mapper l) (← toSqlOrValue env mapper r) env
  | .ge l r => do
    toSqlBinaryTail (.ge l r) (← toSqlOrValue env mapper l) (← toSqlOrValue env mapper r) env
  | .lt l r => do
    toSqlBinaryTail (.lt l r) (← toSqlOrValue env mapper l) (← toSqlOrValue env mapper r) env
  | .le l r => do
    toSqlBinaryTail (.le l r) (← toSqlOrValue env mapper l) (← toSqlOrValue env mapper r) env
  | .add l r => do
    toSqlBinaryTail (.add l r) (← toSqlOrValue env mapper l) (← toSqlOrValue env mapper r) env
  | .sub l r => do
    toSqlBinaryTail (.sub l r) (← toSqlOrValue env mapper l) (← toSqlOrValue env mapper r) env
  | .mult l r => do
    toSqlBinaryTail (.mult l r) (← toSqlOrValue env mapper l) (← toSqlOrValue env mapper r) env
  | .contains l r => do
    toSqlBinaryTail (.contains l r) (← toSqlOrValue env mapper l) (← toSqlOrValue env mapper r) env
  | .containsAll l r => do
    toSqlBinaryTail (.containsAll l r) (← toSqlOrValue env mapper l) (← toSqlOrValue env mapper r) env
  | .containsAny l r => do
    toSqlBinaryTail (.containsAny l r) (← toSqlOrValue env mapper l) (← toSqlOrValue env mapper r) env
  | .isEmpty a => do toSqlEmptyTail (← toSqlOrValue env mapper a) env
  | .extensionCall isPartialError =>
    if isPartialError then .error (.err .partialExtension)
    else do valueToResult true (some (← nodeToValue (.extensionCall false) env)) .null
  | .has a f => do toSqlHasTail (← toSqlOrValue env mapper a) f env mapper
  | .getTag l r => do
    valueToResult true (some (← nodeToValue (.getTag l r) env)) .null
  | .like a p => do
    valueToResult true (some (← nodeToValue (.like a p) env)) .null
  | .ifThenElse c t e => do
    valueToResult true (some (← nodeToValue (.ifThenElse c t e) env)) .null
  | .is a ty => do
    valueToResult true (some (← nodeToValue (.is a ty) env)) .null
  | .isIn a e => do
    valueToResult true (some (← nodeToValue (.isIn a e) env)) .null
  | .negate a => do
    valueToResult true (some (← nodeToValue (.negate a) env)) .null
  | .record entries => do
    valueToResult true (some (← nodeToValue (.record entries) env)) .null
  | .set elems => do
    valueToResult true (some (← nodeToValue (.set elems) env)) .null

/-- Top-level `ToSql`: reduce the root; a concrete boolean becomes a truth
constant, any other concrete value is a type error, a fragment is
rendered. -/
def toSql (node : Node) (env : Env) (mapper : Mapper) : RendRes :=
  match toSqlOrValue env mapper node with
  | .error .panic => .panic
  | .error (.err e) => .res [] [] (some e)
  | .ok r =>
    if r.isValue then
      match r.value with
      | some (.bool true) => .res sqlTrue [] none
      | some (.bool false) => .res sqlFalse [] none
      | _ => .res [] [] (some .typeMismatch)
    else render r.sqlizer

/-- A policy: effect and condition expression (scope conditions are already
part of the condition, as `eval.PolicyToNode` produces). -/
inductive Effect where
  | permit
  | forbid
deriving DecidableEq

/-- A policy of the set. -/
structure Policy where
  effect : Effect
  condition : Node

/-- Modelled from the spec: the external partial evaluator
(`eval.PartialPolicy`) on the condition fragment the repository exercises:
known subexpressions fold to values, subexpressions over a
variable-sentinel stay residual, `&&` and `||` short-circuit on their known
side, and node kinds outside the fragment report an evaluation error. -/
def peNode (env : Env) : Node → Except Err Node
  | .value v => .ok (.value v)
  | .var name => (evalN env (.var name)).map .value
  | .access a f => do
    match ← peNode env a with
    | .value v =>
      if (toVariable v).isSome then .ok (.access (.value v) f)
      else (evalAccess env v f).map .value
    | a' => .ok (.access a' f)
  | .has a f => do
    match ← peNode env a with
    | .value v =>
      if (toVariable v).isSome then .ok (.has (.value v) f)
      else (evalHas env v f).map .value
    | a' => .ok (.has a' f)
  | .not a => do
    match ← peNode env a with
    | .value v =>
      if (toVariable v).isSome then .ok (.not (.value v))
      else
        match v with
        | .bool b => .ok (.value (.bool !b))
        | _ => .error .typeMismatch
    | a' => .ok (.not a')
  | .and l r => do
    match ← peNode env l with
    | .value v =>
      if (toVariable v).isSome then .ok (.and (.value v) (← peNode env r))
      else
        match v with
        | .bool true => peNode env r
        | .bool false => .ok (.value (.bool false))
        | _ => .error .typeMismatch
    | l' => .ok (.and l' (← peNode env r))
  | .or l r => do
    match ← peNode env l with
    | .value v =>
      if (toVariable v).isSome then .ok (.or (.value v) (← peNode env r))
      else
        match v with
        | .bool false => peNode env r
        | .bool true => .ok (.value (.bool true))
        | _ => .error .typeMismatch
    | l' => .ok (.or l' (← peNode env r))
  | .eq l r => do
    match ← peNode env l, ← peNode env r with
    | .value a, .value b =>
      if (toVariable a).isSome ∨ (toVariable b).isSome then
        .ok (.eq (.value a) (.value b))
      else .ok (.value (.bool (valueBeq a b)))
    | l', r' => .ok (.eq l' r')
  | .inn l r => do
    match ← peNode env l, ← peNode env r with
    | .value a, .value b =>
      if (toVariable a).isSome ∨ (toVariable b).isSome then
        .ok (.inn (.value a) (.value b))
      else
        match a, b with
        | .entity ta ia, .entity tb ib =>
          .ok (.value (.bool (entityIn env.entities (ta, ia) (tb, ib))))
        | _, _ => .error .typeMismatch
    | l', r' => .ok (.inn l' r')
  | _ => .error .evalError

/-- Modelled from the spec: `eval.PartialPolicy` followed by
`eval.PolicyToNode` — `none` when the policy is definitely inapplicable
(`keep == false`: the condition folds to `false` or errors), otherwise the
residual condition node. -/
def partialPolicyNode (env : Env) (p : Policy) : Option Node :=
  match peNode env p.condition with
  | .error _ => none
  | .ok (.value (.bool false)) => none
  | .ok n => some n

/-- The repository's `partial` (of package `cedarsqlizer`; renamed because
`partial` is reserved in Lean): classify a policy under the environment as
dropped `(false, none)`, outright satisfied `(true, none)`, or remainder
`(false, some node)`; a residual that is a bare non-boolean, non-variable
value is an error. -/
def partialClassify (env : Env) (p : Policy) : Except Err (Bool × Option Node) :=
  match partialPolicyNode env p with
  | none => .ok (false, none)
  | some n =>
    match n with
    | .value v =>
      if (toVariable v).isSome then .ok (false, some n)
      else
        match v with
        | .bool b => .ok (b, none)
        | _ => .error .typeMismatch
    | _ => .ok (false, some n)

/-- The four buckets collected by the loop of `AuthorizeSQL` (policy ids
are positions here; the Go `map` iteration order over remainder buckets is
modelled as the policy-set order). -/
structure Classified where
  permits : List Nat
  forbids : List Nat
  permitsRemains : List Node
  forbidsRemains : List Node

/-- The classification loop of `AuthorizeSQL`: run `partial` on each policy
(an error aborts), and append to the effect's satisfied or remainder
bucket. -/
def classify (env : Env) : Nat → List Policy → Except Err Classified
  | _, [] => .ok ⟨[], [], [], []⟩
  | i, p :: rest => do
    let (satisfied, isNode) ← partialClassify env p
    let acc ← classify env (i + 1) rest
    let acc :=
      if satisfied then
        match p.effect with
        | .permit => { acc with permits := i :: acc.permits }
        | .forbid => { acc with forbids := i :: acc.forbids }
      else acc
    match isNode with
    | some n =>
      match p.effect with
      | .permit => .ok { acc with permitsRemains := n :: acc.permitsRemains }
      | .forbid => .ok { acc with forbidsRemains := n :: acc.forbidsRemains }
    | none => .ok acc

/-- The combination step of `AuthorizeSQL`: a satisfied forbid forces
`false`; else a satisfied permit forces `true`; else the residual is
`(true AND (false OR p₁ OR …)) AND NOT (false OR f₁ OR …)` — both
disjunctions start from `ast.False()`, so the source's nil-checks always
fire and the `AND NOT(...)` term is always appended. -/
def combineNode (c : Classified) : Node :=
  if c.forbids ≠ [] then .value (.bool false)
  else if c.permits ≠ [] then .value (.bool true)
  else
    let permitsNode := c.permitsRemains.foldl (fun acc n => .or acc n) (Node.value (.bool false))
    let forbidsNode := c.forbidsRemains.foldl (fun acc n => .or acc n) (Node.value (.bool false))
    .and (.and (.value (.bool true)) permitsNode) (.not forbidsNode)

/-- `AuthorizeSQLRequest`. -/
structure AuthorizeSQLRequest where
  principal : Value
  action : Value
  context : Option Value
  fieldMapper : Option Mapper

/-- The environment `AuthorizeSQL` builds: `resource` is always the unknown
variable; `context` defaults to the unknown variable. -/
def authEnv (entities : List Entity) (req : AuthorizeSQLRequest) : Env :=
  { entities
    principal := req.principal
    action := req.action
    resource := mkVariable "resource".toList
    context := req.context.getD (mkVariable "context".toList) }

/-- `AuthorizeSQL`: classify the policy set under the partial environment,
combine per deny-override, and translate the residual to SQL. -/
def authorizeSQL (policies : List Policy) (entities : List Entity)
    (req : AuthorizeSQLRequest) : RendRes :=
  let env := authEnv entities req
  match classify env 0 policies with
  | .error e => .res [] [] (some e)
  | .ok c =>
    let mapper := req.fieldMapper.getD defaultFieldMapper
    toSql (combineNode c) env mapper

/-! ## Fixtures from `authorize_test.go` -/

/-- The `docMapper` of `authorize_test.go`: `resource.owner`/`resource.is_public`
map to `document.*`; `users.id`/`users.block` map to themselves; everything
else is rejected. -/
def docMapper : Mapper := fun name =>
  if "resource.".toList.isPrefixOf name then
    let field := name.drop "resource.".toList.length
    if field = "owner".toList ∨ field = "is_public".toList then
      some ("document.".toList ++ field)
    else none
  else if "users.".toList.isPrefixOf name then
    let field := name.drop "users.".toList.length
    if field = "id".toList ∨ field = "block".toList then some name
    else none
  else none

/-- The entity store of the test: admin `alice`, plain `bob`, blocked
`charlie`, and the `admin` group. -/
def testEntities : List Entity :=
  [ { ty := "User".toList, id := "alice".toList, attrs := [],
      parents := [("Group".toList, "admin".toList)] }
  , { ty := "User".toList, id := "bob".toList, attrs := [], parents := [] }
  , { ty := "User".toList, id := "charlie".toList,
      attrs := [("block".toList, .bool true)], parents := [] }
  , { ty := "Group".toList, id := "admin".toList, attrs := [], parents := [] } ]

/-- The scope condition `action == Action::"ViewDocument"`. -/
def actionScope : Node :=
  .eq (.var "action".toList) (.value (.entity "Action".toList "ViewDocument".toList))

/-- `context.is_authenticated`. -/
def ctxAuth : Node := .access (.var "context".toList) "is_authenticated".toList

/-- `resource.owner == principal || resource.is_public == true`. -/
def ownerOrPublic : Node :=
  .or (.eq (.access (.var "resource".toList) "owner".toList) (.var "principal".toList))
      (.eq (.access (.var "resource".toList) "is_public".toList) (.value (.bool true)))

/-- Permit: authenticated ∧ (owner or public). -/
def policyOwnerOrPublic : Policy :=
  { effect := .permit, condition := .and actionScope (.and ctxAuth ownerOrPublic) }

/-- Permit: authenticated ∧ principal in `Group::"admin"`. -/
def policyAdmin : Policy :=
  { effect := .permit
    condition := .and actionScope (.and ctxAuth
      (.inn (.var "principal".toList) (.value (.entity "Group".toList "admin".toList)))) }

/-- Permit: unauthenticated ∧ public. -/
def policyGuest : Policy :=
  { effect := .permit
    condition := .and actionScope (.and (.not ctxAuth)
      (.eq (.access (.var "resource".toList) "is_public".toList) (.value (.bool true)))) }

/-- Forbid: `principal has block && principal.block == true`. -/
def policyBlocked : Policy :=
  { effect := .forbid
    condition := .and actionScope
      (.and (.has (.var "principal".toList) "block".toList)
            (.eq (.access (.var "principal".toList) "block".toList) (.value (.bool true)))) }

/-- The documented four-policy set. -/
def testPolicies : List Policy :=
  [policyOwnerOrPublic, policyAdmin, policyGuest, policyBlocked]

/-- The request of the test table for a given principal and context flag. -/
def mkReq (who : String) (auth : Bool) : AuthorizeSQLRequest :=
  { principal := .entity "User".toList who.toList
    action := .entity "Action".toList "ViewDocument".toList
    context := some (.record [("is_authenticated".toList, .bool auth)])
    fieldMapper := some docMapper }

/-! ## Small fixtures for counterexamples and witnesses -/

/-- An environment with unknown `resource`/`context`, a concrete principal,
and an empty store. -/
def ctxEnv : Env :=
  { entities := []
    principal := .entity "User".toList "u".toList
    action := .entity "Action".toList "a".toList
    resource := mkVariable "resource".toList
    context := mkVariable "context".toList }

/-- A minimal request (defaults: unknown context, identity mapper). -/
def req0 : AuthorizeSQLRequest :=
  { principal := .entity "User".toList "u".toList
    action := .entity "Action".toList "a".toList
    context := none
    fieldMapper := none }

/-- `context.foo`, a node that reduces to a column fragment. -/
def ctxFoo : Node := .access (.var "context".toList) "foo".toList

/-- A permit whose condition partial-evaluates outright to `true`. -/
def permitTruePolicy : Policy := { effect := .permit, condition := .value (.bool true) }

/-- A forbid whose condition partial-evaluates outright to `true`. -/
def forbidTruePolicy : Policy := { effect := .forbid, condition := .value (.bool true) }

/-- A forbid whose condition leaves a remainder over the unknown
`resource`. -/
def forbidRemainderPolicy : Policy :=
  { effect := .forbid
    condition := .eq (.access (.var "resource".toList) "owner".toList)
      (.value (.str "blocked".toList)) }

/-! ## Claims -/

/-- Claim C10: `Expr` constructs a fragment exactly when the count of
unescaped `?` in the template equals the number of arguments; a mismatch
panics at construction time. -/
theorem expr_arity_fail_fast (sql : Str) (args : List EArg) :
    (Expr sql args = .ok (.expr sql args) ↔ countPlaceholders sql = args.length) ∧
    (Expr sql args = .error .panic ↔ countPlaceholders sql ≠ args.length) := by
  unfold Expr
  split <;> simp_all

/-- Claim C8: `AndExpr`/`OrExpr` with no parts render to the identity
constants `"1 = 1"`/`"1 = 0"` with empty arguments; with two parts `OrExpr`
parenthesizes but `AndExpr` does not — `AndExpr(Expr("1 = 1"), Expr("2 = 2"))`
renders as `1 = 1 AND 2 = 2`, not `(1 = 1 AND 2 = 2)` as the claim (and
both test files) state. -/
theorem conj_rendering_divergence :
    render (AndExpr []) = .res sqlTrue [] none ∧
    render (OrExpr []) = .res sqlFalse [] none ∧
    render (AndExpr [.expr "1 = 1".toList [], .expr "2 = 2".toList []]) =
      .res "1 = 1 AND 2 = 2".toList [] none ∧
    render (OrExpr [.expr "1 = 1".toList [], .expr "2 = 2".toList []]) =
      .res "(1 = 1 OR 2 = 2)".toList [] none ∧
    "1 = 1 AND 2 = 2".toList ≠ "(1 = 1 AND 2 = 2)".toList :=
  ⟨rfl, rfl, rfl, rfl, by decide⟩

/-- Claim C6: with a fragment left side, `Contains` emits `"? ?? ?"`
(rendered `?`), but `ContainsAll` emits `"? ??| ?"` (rendered `?|`) and
`ContainsAny` emits `"? ??& ?"` (rendered `?&`) — swapped relative to the
claim and to the file's own `getBinaryFields` operator table; a concrete
left side is an error. -/
theorem contains_ops_divergence :
    toSql (.contains ctxFoo (.value (.str "x".toList))) ctxEnv defaultFieldMapper =
      .res "context.foo ? ?".toList [.scalar (.str "x".toList)] none ∧
    toSql (.containsAll ctxFoo (.value (.str "x".toList))) ctxEnv defaultFieldMapper =
      .res "context.foo ?| ?".toList [.scalar (.str "x".toList)] none ∧
    toSql (.containsAny ctxFoo (.value (.str "x".toList))) ctxEnv defaultFieldMapper =
      .res "context.foo ?& ?".toList [.scalar (.str "x".toList)] none ∧
    getBinaryFields (.containsAll ctxFoo (.value (.str "x".toList))) =
      some ("??&".toList, ctxFoo, .value (.str "x".toList)) ∧
    getBinaryFields (.containsAny ctxFoo (.value (.str "x".toList))) =
      some ("??|".toList, ctxFoo, .value (.str "x".toList)) ∧
    toSql (.containsAll (.value (.str "x".toList)) ctxFoo) ctxEnv defaultFieldMapper =
      .res [] [] (some .shapeError) :=
  ⟨rfl, rfl, rfl, rfl, rfl, rfl⟩

/-- Claim C3: end-to-end S2 — the documented four-policy set, principal
`bob` with authenticated context and the `resource.* → document.*` mapper,
yields exactly `("(document.owner = ? OR document.is_public = ?)",
["bob", true])` with no error. -/
theorem authorize_s2_bob :
    authorizeSQL testPolicies testEntities (mkReq "bob" true) =
      .res "(document.owner = ? OR document.is_public = ?)".toList
        [.scalar (.str "bob".toList), .scalar (.bool true)] none := rfl

/-- Claim C4: with no policy satisfied and no permit remainder the combiner
yields `"1 = 0"` only when there is no forbid remainder (e.g. the empty or
all-dropped policy set); with a forbid remainder present, the residual is
`Concrete(false) AND NOT(forbids)`, whose conjunction carries a nil
fragment on the concrete side, and rendering it panics instead of
returning `"1 = 0"`. -/
theorem no_permit_nothing_authorizes :
    authorizeSQL [] [] req0 = .res sqlFalse [] none ∧
    authorizeSQL [forbidRemainderPolicy] [] req0 = .panic :=
  ⟨rfl, rfl⟩

/-- The `result` for `Concrete(false)` as the reducer produces it. -/
def concreteFalse : Result := ⟨true, some (.bool false), .null⟩

/-- The `result` for `Concrete(true)` as the reducer produces it. -/
def concreteTrue : Result := ⟨true, some (.bool true), .null⟩

/-- A fragment `result` over the one-column expression `x`. -/
def fragX : Result := ⟨false, none, .expr "x".toList []⟩

/-- Claim C7 (counterexample): `And(Concrete(false), F)` for a fragment `F`
is not `Concrete(false)`: the code returns a fragment conjunction holding
the concrete side's nil sqlizer, and rendering that conjunction panics. -/
theorem and_absorb_counterexample :
    Result.and concreteFalse fragX =
      .ok ⟨false, none, .conj [.null, .expr "x".toList []] andSep sqlTrue⟩ ∧
    Result.and concreteFalse fragX ≠ .ok concreteFalse ∧
    render (.conj [.null, .expr "x".toList []] andSep sqlTrue) = .panic := by
  refine ⟨rfl, ?_, rfl⟩
  intro h
  simp [Result.and, Result.andRight, valueIsTrue, concreteFalse, fragX, valueToResult,
    AndExpr, Result] at h

/-- Every `Sqlizer` has positive size. -/
theorem sqSize_pos (s : Sqlizer) : 1 ≤ sqSize s := by
  cases s <;> simp [sqSize] <;> omega

/-- Rendering a conjunction whose first part is a nil `Sqlizer` panics. -/
theorem render_conj_null_head (rest : List Sqlizer) (sep dflt : Str) :
    render (.conj (.null :: rest) sep dflt) = .panic := by
  have h : sqSize (.conj (.null :: rest) sep dflt) = (sqListSize rest + 1) + 1 := by
    simp [sqSize, sqListSize]
    omega
  unfold render
  rw [h]
  rfl

/-- Claim C7 (amended): over reduced operands, the identity laws hold —
`And(Concrete(true), R) = R`, `And(F, Concrete(true)) = F`,
`Or(Concrete(false), R) = R`, `Or(F, Concrete(false)) = F` — and a
non-boolean concrete operand is a type error; but the absorbing laws do
not: `And(Concrete(false), F)` (and dually `Or(Concrete(true), F)`)
returns a fragment conjunction carrying a nil sqlizer on the concrete
side, whose rendering panics. -/
theorem and_or_shortcircuit_laws :
    (∀ R : Result, Result.and concreteTrue R = .ok R) ∧
    (∀ L : Result, L.isValue = false → Result.and L concreteTrue = .ok L) ∧
    (∀ R : Result, Result.or concreteFalse R = .ok R) ∧
    (∀ L : Result, L.isValue = false → Result.or L concreteFalse = .ok L) ∧
    (∀ R : Result, R.isValue = false →
      Result.and concreteFalse R = .ok ⟨false, none, AndExpr [.null, R.sqlizer]⟩ ∧
      render (AndExpr [.null, R.sqlizer]) = .panic) ∧
    (∀ R : Result, R.isValue = false →
      Result.or concreteTrue R = .ok ⟨false, none, OrExpr [.null, R.sqlizer]⟩ ∧
      render (OrExpr [.null, R.sqlizer]) = .panic) ∧
    (∀ R : Result, Result.and ⟨true, some (.str "a".toList), .null⟩ R =
      .error (.err .typeMismatch)) ∧
    (∀ L : Result, L.isValue = false →
      Result.and L ⟨true, some (.str "a".toList), .null⟩ = .error (.err .typeMismatch)) := by
  refine ⟨fun R => rfl, ?_, fun R => rfl, ?_, ?_, ?_, fun R => rfl, ?_⟩
  · rintro ⟨lv, v, s⟩ h
    subst h
    rfl
  · rintro ⟨lv, v, s⟩ h
    subst h
    rfl
  · rintro ⟨lv, v, s⟩ h
    subst h
    exact ⟨rfl, render_conj_null_head _ _ _⟩
  · rintro ⟨lv, v, s⟩ h
    subst h
    exact ⟨rfl, render_conj_null_head _ _ _⟩
  · rintro ⟨lv, v, s⟩ h
    subst h
    rfl

/-- Witness for C7's amended theorem at concrete operands. -/
theorem and_or_shortcircuit_laws_witness :
    Result.and concreteTrue fragX = .ok fragX ∧
    Result.and fragX concreteTrue = .ok fragX ∧
    Result.or concreteFalse fragX = .ok fragX ∧
    Result.or fragX concreteFalse = .ok fragX ∧
    Result.and concreteFalse fragX = .ok ⟨false, none, AndExpr [.null, fragX.sqlizer]⟩ ∧
    render (AndExpr [.null, fragX.sqlizer]) = .panic ∧
    Result.and fragX ⟨true, some (.str "a".toList), .null⟩ = .error (.err .typeMismatch) := by
  obtain ⟨h1, h2, h3, h4, h5, _, _, h8⟩ := and_or_shortcircuit_laws
  obtain ⟨h5a, h5b⟩ := h5 fragX rfl
  exact ⟨h1 fragX, h2 fragX rfl, h3 fragX, h4 fragX rfl, h5a, h5b, h8 fragX rfl⟩

/-- A policy is *outright satisfied* when `partial` reports
`(satisfied, nil)`. -/
def Satisfied (env : Env) (p : Policy) : Prop :=
  partialClassify env p = .ok (true, none)

/-- If `partial` reports `satisfied = true`, the remainder node is `nil`. -/
theorem partialClassify_true_none {env : Env} {p : Policy} {isNode : Option Node}
    (h : partialClassify env p = .ok (true, isNode)) : isNode = none := by
  unfold partialClassify at h
  split at h
  · simp at h
  · split at h
    · split at h
      · simp_all
      · split at h <;> simp_all
    · simp_all

/-- Characterization of the classification loop, assuming every policy's
`partial` evaluation succeeds: the loop succeeds, and the satisfied-forbid
(resp. satisfied-permit) bucket is empty exactly when no forbid (resp.
permit) of the set is outright satisfied. -/
theorem classify_ok (env : Env) (policies : List Policy)
    (hok : ∀ p ∈ policies, ∃ out, partialClassify env p = .ok out) (i : Nat) :
    ∃ c, classify env i policies = .ok c ∧
      (c.forbids = [] ↔ ¬ ∃ p ∈ policies, p.effect = .forbid ∧ Satisfied env p) ∧
      (c.permits = [] ↔ ¬ ∃ p ∈ policies, p.effect = .permit ∧ Satisfied env p) := by
  induction policies generalizing i with
  | nil => exact ⟨⟨[], [], [], []⟩, rfl, by simp, by simp⟩
  | cons p rest ih =>
    obtain ⟨⟨sat, isNode⟩, hout⟩ := hok p (by simp)
    obtain ⟨c, hc, hf, hp⟩ := ih (fun q hq => hok q (by simp [hq])) (i + 1)
    have hsat : sat = true → Satisfied env p := by
      intro h
      subst h
      rwa [partialClassify_true_none hout] at hout
    have hunsat : sat = false → ¬ Satisfied env p := by
      intro h hS
      subst h
      rw [hS] at hout
      simp at hout
    cases sat with
    | true =>
      have hS := hsat rfl
      have hnone := partialClassify_true_none hout
      subst hnone
      cases hpe : p.effect with
      | forbid =>
        refine ⟨{ c with forbids := i :: c.forbids }, ?_, ?_, ?_⟩
        · simp [classify, hout, hc, hpe, bind, Except.bind]
        · simp only [List.exists_mem_cons_iff]
          constructor
          · intro h
            simp at h
          · intro h
            exact absurd (Or.inl ⟨hpe, hS⟩) h
        · simp only [List.exists_mem_cons_iff, hpe]
          rw [hp]
          simp
      | permit =>
        refine ⟨{ c with permits := i :: c.permits }, ?_, ?_, ?_⟩
        · simp [classify, hout, hc, hpe, bind, Except.bind]
        · simp only [List.exists_mem_cons_iff, hpe]
          rw [hf]
          simp
        · simp only [List.exists_mem_cons_iff]
          constructor
          · intro h
            simp at h
          · intro h
            exact absurd (Or.inl ⟨hpe, hS⟩) h
    | false =>
      have hnS := hunsat rfl
      have hstep :
          ∀ c', classify env i (p :: rest) = .ok c' →
            c'.forbids = c.forbids ∧ c'.permits = c.permits := by
        intro c' h
        simp only [classify, hout, hc, bind, Except.bind] at h
        cases isNode with
        | none =>
          simp at h
          subst h
          exact ⟨rfl, rfl⟩
        | some n =>
          cases hpe : p.effect <;> simp [hpe] at h <;> subst h <;> exact ⟨rfl, rfl⟩
      have hex : ∃ c', classify env i (p :: rest) = .ok c' := by
        simp only [classify, hout, hc, bind, Except.bind]
        cases isNode with
        | none => exact ⟨c, by simp⟩
        | some n =>
          cases hpe : p.effect
          · exact ⟨{ c with permitsRemains := n :: c.permitsRemains }, by simp [hpe]⟩
          · exact ⟨{ c with forbidsRemains := n :: c.forbidsRemains }, by simp [hpe]⟩
      obtain ⟨c', hc'⟩ := hex
      obtain ⟨hcf, hcp⟩ := hstep c' hc'
      refine ⟨c', hc', ?_, ?_⟩
      · rw [hcf, hf]
        simp only [List.exists_mem_cons_iff]
        constructor
        · intro h hor
          rcases hor with ⟨_, hS⟩ | h2
          · exact hnS hS
          · exact h h2
        · intro h h2
          exact h (Or.inr h2)
      · rw [hcp, hp]
        simp only [List.exists_mem_cons_iff]
        constructor
        · intro h hor
          rcases hor with ⟨_, hS⟩ | h2
          · exact hnS hS
          · exact h h2
        · intro h h2
          exact h (Or.inr h2)

/-- `ToSql` on the literal `false` node. -/
theorem toSql_value_false (env : Env) (m : Mapper) :
    toSql (.value (.bool false)) env m = .res sqlFalse [] none := rfl

/-- `ToSql` on the literal `true` node. -/
theorem toSql_value_true (env : Env) (m : Mapper) :
    toSql (.value (.bool true)) env m = .res sqlTrue [] none := rfl

/-- Claim C1: deny overrides — whenever every policy's partial evaluation
succeeds and at least one forbid policy is outright satisfied under the
request environment, `AuthorizeSQL` returns exactly `("1 = 0", [])` with no
error, regardless of the permit policies. -/
theorem authorize_deny_overrides (policies : List Policy) (entities : List Entity)
    (req : AuthorizeSQLRequest)
    (hok : ∀ p ∈ policies, ∃ out, partialClassify (authEnv entities req) p = .ok out)
    (hforbid : ∃ p ∈ policies, p.effect = .forbid ∧ Satisfied (authEnv entities req) p) :
    authorizeSQL policies entities req = .res sqlFalse [] none := by
  obtain ⟨c, hc, hfor, _⟩ := classify_ok (authEnv entities req) policies hok 0
  have hne : c.forbids ≠ [] := by
    intro h
    exact (hfor.mp h) hforbid
  simp only [authorizeSQL, hc]
  unfold combineNode
  rw [if_pos hne]
  exact toSql_value_false _ _

/-- Witness for C1: a concrete set with a satisfied forbid and a permit. -/
theorem authorize_deny_overrides_witness :
    authorizeSQL [permitTruePolicy, forbidTruePolicy] [] req0 = .res sqlFalse [] none := by
  apply authorize_deny_overrides
  · intro p hp
    simp only [List.mem_cons, List.mem_singleton] at hp
    rcases hp with h | h | h
    · exact ⟨(true, none), by rw [h]; rfl⟩
    · exact ⟨(true, none), by rw [h]; rfl⟩
    · cases h
  · exact ⟨forbidTruePolicy, by simp, rfl, rfl⟩

/-- Claim C2 (counterexample): a policy set with an outright-satisfied
permit **and** a forbid remainder yields plain `"1 = 1"` — the emitted SQL
does not contain the negated forbid disjunction. -/
theorem permit_satisfied_ignores_forbid_remainder :
    authorizeSQL [permitTruePolicy, forbidRemainderPolicy] [] req0 =
      .res sqlTrue [] none ∧
    partialClassify (authEnv [] req0) forbidRemainderPolicy =
      .ok (false, some (.eq (.access (.value (mkVariable "resource".toList))
        "owner".toList) (.value (.str "blocked".toList)))) :=
  ⟨rfl, rfl⟩

/-- Claim C2 (amended): whenever every policy's partial evaluation succeeds,
no forbid is outright satisfied, and some permit is outright satisfied,
`AuthorizeSQL` returns `("1 = 1", [])` — irrespective of any forbid
remainders, which this branch of the combiner ignores. -/
theorem authorize_permit_satisfied (policies : List Policy) (entities : List Entity)
    (req : AuthorizeSQLRequest)
    (hok : ∀ p ∈ policies, ∃ out, partialClassify (authEnv entities req) p = .ok out)
    (hnoforbid : ¬ ∃ p ∈ policies, p.effect = .forbid ∧ Satisfied (authEnv entities req) p)
    (hpermit : ∃ p ∈ policies, p.effect = .permit ∧ Satisfied (authEnv entities req) p) :
    authorizeSQL policies entities req = .res sqlTrue [] none := by
  obtain ⟨c, hc, hfor, hper⟩ := classify_ok (authEnv entities req) policies hok 0
  have hfe : c.forbids = [] := hfor.mpr hnoforbid
  have hpe : c.permits ≠ [] := by
    intro h
    exact (hper.mp h) hpermit
  simp only [authorizeSQL, hc]
  unfold combineNode
  rw [if_neg (by simp [hfe]), if_pos hpe]
  exact toSql_value_true _ _

/-- Witness for C2's amended theorem: the satisfied permit next to a forbid
remainder. -/
theorem authorize_permit_satisfied_witness :
    authorizeSQL [permitTruePolicy, forbidRemainderPolicy] [] req0 =
      .res sqlTrue [] none := by
  apply authorize_permit_satisfied
  · intro p hp
    simp only [List.mem_cons, List.mem_singleton] at hp
    rcases hp with h | h | h
    · exact ⟨(true, none), by rw [h]; rfl⟩
    · exact ⟨(false, some (.eq (.access (.value (mkVariable "resource".toList))
        "owner".toList) (.value (.str "blocked".toList)))), by rw [h]; rfl⟩
    · cases h
  · rintro ⟨p, hp, heff, hS⟩
    simp only [List.mem_cons, List.mem_singleton] at hp
    rcases hp with h | h | h
    · subst h
      cases heff
    · subst h
      rw [Satisfied] at hS
      simp [show partialClassify (authEnv [] req0) forbidRemainderPolicy =
        .ok (false, some (.eq (.access (.value (mkVariable "resource".toList))
          "owner".toList) (.value (.str "blocked".toList)))) from rfl] at hS
    · cases h
  · exact ⟨permitTruePolicy, by simp, rfl, rfl⟩

/-! ## Well-formedness of reducer-built fragments (for C9 and C5)

The reducer only ever builds `part` predicates that are strings (or nested
good sqlizers) and `concat` elements that are strings or good sqlizers —
the renderer's error branches for foreign predicate/element types are
unreachable from reducer output.  `goodS` captures this. -/

mutual
/-- Reducer-reachable sqlizers: no foreign (`bad`) predicate or concat
element anywhere. -/
def goodS : Sqlizer → Prop
  | .expr _ args => goodArgs args
  | .part pred args => goodPred pred ∧ goodArgs args
  | .concat parts => goodCElems parts
  | .conj parts _ _ => goodConjList parts
  | .null => True

/-- Goodness of an argument list. -/
def goodArgs : List EArg → Prop
  | [] => True
  | .scalar _ :: rest => goodArgs rest
  | .sqlizer s :: rest => goodS s ∧ goodArgs rest

/-- Goodness of a `part` predicate. -/
def goodPred : Pred → Prop
  | .bad => False
  | .sqlizer s => goodS s
  | _ => True

/-- Goodness of concat elements. -/
def goodCElems : List CElem → Prop
  | [] => True
  | .bad :: _ => False
  | .sqlizer s :: rest => goodS s ∧ goodCElems rest
  | _ :: rest => goodCElems rest

/-- Goodness of conjunction parts. -/
def goodConjList : List Sqlizer → Prop
  | [] => True
  | s :: rest => goodS s ∧ goodConjList rest
end

/-- The renderer invariant a nested-render callback must satisfy for the
loop lemmas: on good input, a returned result carries no error and good
arguments. -/
def RndGood (rnd : Sqlizer → Option RendRes) : Prop :=
  ∀ s, goodS s → ∀ sql args e, rnd s = some (.res sql args e) → e = none ∧ goodArgs args

/-- Appending preserves goodness of argument lists. -/
theorem goodArgs_append {a b : List EArg} (ha : goodArgs a) (hb : goodArgs b) :
    goodArgs (a ++ b) := by
  induction a with
  | nil => simpa using hb
  | cons x rest ih =>
    cases x with
    | scalar v =>
      simp only [goodArgs, List.cons_append] at ha ⊢
      exact ih ha
    | sqlizer s =>
      simp only [goodArgs, List.cons_append] at ha ⊢
      exact ⟨ha.1, ih ha.2⟩

/-- Splitting goodness of argument lists. -/
theorem goodArgs_cons {a : EArg} {rest : List EArg} (h : goodArgs (a :: rest)) :
    goodArgs rest := by
  cases a <;> simp only [goodArgs] at h
  · exact h
  · exact h.2

/-- Inversion of `prepend` on a successful result. -/
theorem prepend_res {pre : Str} {pargs : List EArg} {r : Option RendRes}
    {sql : Str} {args : List EArg} {e : Option Err}
    (h : prepend pre pargs r = some (.res sql args e)) :
    ∃ s' a', r = some (.res s' a' e) ∧ sql = pre ++ s' ∧ args = pargs ++ a' := by
  cases r with
  | none => simp [prepend] at h
  | some rr =>
    cases rr with
    | panic => simp [prepend] at h
    | res s a e' =>
      simp only [prepend, Option.some.injEq, RendRes.res.injEq] at h
      obtain ⟨h1, h2, h3⟩ := h
      exact ⟨s, a, by rw [h3], h1.symm, h2.symm⟩

/-- The `expr.ToSql` loop returns no error and good output arguments when
the argument list is good and nested renders behave (`RndGood`). -/
theorem renderLoop_good {rnd : Sqlizer → Option RendRes} (hr : RndGood rnd) :
    ∀ sp ap, goodArgs ap → ∀ sql args e,
      renderLoop rnd sp ap = some (.res sql args e) → e = none ∧ goodArgs args := by
  intro sp ap
  induction sp, ap using renderLoop.induct rnd
  all_goals intro hgood sql args e h
  case case1 sp =>
    -- (sp, []) base: the remaining template is emitted with no args
    simp only [renderLoop, Option.some.injEq, RendRes.res.injEq] at h
    obtain ⟨_, h2, h3⟩ := h
    subst h2
    subst h3
    exact ⟨rfl, by simp [goodArgs]⟩
  case case2 a ap =>
    -- ([], a :: ap): leftover arguments are appended verbatim
    simp only [renderLoop, Option.some.injEq, RendRes.res.injEq] at h
    obtain ⟨_, h2, h3⟩ := h
    subst h2
    subst h3
    exact ⟨rfl, hgood⟩
  case case3 a ap rest2 ih =>
    -- escaped "??"
    simp only [renderLoop, reduceIte] at h
    obtain ⟨s', a', hrec, _, hargs⟩ := prepend_res h
    obtain ⟨he, hga⟩ := ih hgood _ _ _ hrec
    exact ⟨he, by simpa [hargs] using hga⟩
  case case4 ap c2 rest2 hc2 v ih =>
    simp only [renderLoop, reduceIte, if_neg hc2] at h
    obtain ⟨s', a', hrec, _, hargs⟩ := prepend_res h
    obtain ⟨he, hga⟩ := ih (goodArgs_cons hgood) _ _ _ hrec
    refine ⟨he, ?_⟩
    subst hargs
    simpa [goodArgs] using hga
  case case5 ap c2 rest2 hc2 s hs =>
    simp [renderLoop, if_neg hc2, hs] at h
  case case6 ap c2 rest2 hc2 s hs =>
    simp [renderLoop, if_neg hc2, hs] at h
  case case7 ap c2 rest2 hc2 s isql iargs hs ih =>
    simp only [goodArgs] at hgood
    simp only [renderLoop, reduceIte, if_neg hc2, hs] at h
    obtain ⟨s', a', hrec, _, hargs⟩ := prepend_res h
    obtain ⟨he, hga⟩ := ih hgood.2 _ _ _ hrec
    obtain ⟨_, hgi⟩ := hr s hgood.1 _ _ _ hs
    exact ⟨he, by subst hargs; exact goodArgs_append hgi hga⟩
  case case8 ap c2 rest2 hc2 s isql iargs e0 hs =>
    simp only [goodArgs] at hgood
    obtain ⟨habs, _⟩ := hr s hgood.1 _ _ _ hs
    simp at habs
  case case9 ap v ih =>
    simp only [renderLoop, reduceIte] at h
    obtain ⟨s', a', hrec, _, hargs⟩ := prepend_res h
    obtain ⟨he, hga⟩ := ih (goodArgs_cons hgood) _ _ _ hrec
    refine ⟨he, ?_⟩
    subst hargs
    simpa [goodArgs] using hga
  case case10 ap s hs =>
    simp [renderLoop, hs] at h
  case case11 ap s hs =>
    simp [renderLoop, hs] at h
  case case12 ap s isql iargs hs ih =>
    simp only [goodArgs] at hgood
    simp only [renderLoop, reduceIte, hs] at h
    obtain ⟨s', a', hrec, _, hargs⟩ := prepend_res h
    obtain ⟨he, hga⟩ := ih hgood.2 _ _ _ hrec
    obtain ⟨_, hgi⟩ := hr s hgood.1 _ _ _ hs
    exact ⟨he, by subst hargs; exact goodArgs_append hgi hga⟩
  case case13 ap s isql iargs e0 hs =>
    simp only [goodArgs] at hgood
    obtain ⟨habs, _⟩ := hr s hgood.1 _ _ _ hs
    simp at habs
  case case14 c rest a ap hc ih =>
    rw [renderLoop.eq_def] at h
    simp only [hc, if_false, reduceIte] at h
    obtain ⟨s', a', hrec, _, hargs⟩ := prepend_res h
    obtain ⟨he, hga⟩ := ih hgood _ _ _ hrec
    exact ⟨he, by simpa [hargs] using hga⟩

/-- `concatExpr.ToSql` returns no error and good output arguments on good
input. -/
theorem renderConcat_good {rnd : Sqlizer → Option RendRes} (hr : RndGood rnd) :
    ∀ parts, goodCElems parts → ∀ sql args e,
      renderConcat rnd parts = some (.res sql args e) → e = none ∧ goodArgs args := by
  intro parts
  induction parts with
  | nil =>
    intro _ sql args e h
    simp only [renderConcat, Option.some.injEq, RendRes.res.injEq] at h
    obtain ⟨_, h2, h3⟩ := h
    subst h2
    subst h3
    exact ⟨rfl, by simp [goodArgs]⟩
  | cons p rest ih =>
    intro hgood sql args e h
    cases p with
    | str s =>
      simp only [renderConcat] at h
      obtain ⟨s', a', hrec, _, hargs⟩ := prepend_res h
      obtain ⟨he, hga⟩ := ih (by simpa [goodCElems] using hgood) _ _ _ hrec
      exact ⟨he, by simpa [hargs] using hga⟩
    | cstr s =>
      simp only [renderConcat] at h
      obtain ⟨s', a', hrec, _, hargs⟩ := prepend_res h
      obtain ⟨he, hga⟩ := ih (by simpa [goodCElems] using hgood) _ _ _ hrec
      exact ⟨he, by simpa [hargs] using hga⟩
    | bad => simp [goodCElems] at hgood
    | sqlizer s =>
      simp only [goodCElems] at hgood
      simp only [renderConcat] at h
      cases hs : rnd s with
      | none => rw [hs] at h; simp at h
      | some rr =>
        cases rr with
        | panic => rw [hs] at h; simp at h
        | res psql pargs pe =>
          obtain ⟨hpe, hpa⟩ := hr s hgood.1 _ _ _ hs
          subst hpe
          rw [hs] at h
          obtain ⟨s', a', hrec, _, hargs⟩ := prepend_res h
          obtain ⟨he, hga⟩ := ih hgood.2 _ _ _ hrec
          exact ⟨he, by subst hargs; exact goodArgs_append hpa hga⟩

/-- The `conj.ToSql` loop never reports a part error, and collects good
arguments, on good input. -/
theorem renderConjParts_good {rnd : Sqlizer → Option RendRes} (hr : RndGood rnd) :
    ∀ parts, goodConjList parts →
      (∀ e, renderConjParts rnd parts ≠ .err e) ∧
      (∀ sqlParts args, renderConjParts rnd parts = .parts sqlParts args → goodArgs args) := by
  intro parts
  induction parts with
  | nil =>
    intro _
    refine ⟨fun e h => by simp [renderConjParts] at h, fun sqlParts args h => ?_⟩
    simp only [renderConjParts, ConjAcc.parts.injEq] at h
    rw [← h.2]
    simp [goodArgs]
  | cons s rest ih =>
    intro hgood
    simp only [goodConjList] at hgood
    obtain ⟨ihe, iha⟩ := ih hgood.2
    cases hs : rnd s with
    | none =>
      exact ⟨fun e h => by simp [renderConjParts, hs] at h,
             fun sqlParts args h => by simp [renderConjParts, hs] at h⟩
    | some rr =>
      cases rr with
      | panic =>
        exact ⟨fun e h => by simp [renderConjParts, hs] at h,
               fun sqlParts args h => by simp [renderConjParts, hs] at h⟩
      | res psql pargs pe =>
        obtain ⟨hpe, hpa⟩ := hr s hgood.1 _ _ _ hs
        subst hpe
        by_cases hempty : psql = []
        · constructor
          · intro e h
            rw [renderConjParts.eq_def] at h
            simp only [hs, hempty, reduceIte] at h
            exact ihe e h
          · intro sqlParts args h
            rw [renderConjParts.eq_def] at h
            simp only [hs, hempty, reduceIte] at h
            exact iha _ _ h
        · constructor
          · intro e h
            rw [renderConjParts.eq_def] at h
            simp only [hs, hempty, reduceIte] at h
            cases hrest : renderConjParts rnd rest <;> rw [hrest] at h <;> simp at h
            · subst h
              exact ihe _ hrest
          · intro sqlParts args h
            rw [renderConjParts.eq_def] at h
            simp only [hs, hempty, reduceIte] at h
            cases hrest : renderConjParts rnd rest <;> rw [hrest] at h <;> simp at h
            obtain ⟨_, h2⟩ := h
            exact h2 ▸ goodArgs_append hpa (iha _ _ hrest)

/-- The fueled renderer returns no error and good output arguments on good
input. -/
theorem renderF_good : ∀ n s, goodS s → ∀ sql args e,
    renderF n s = some (.res sql args e) → e = none ∧ goodArgs args := by
  intro n
  induction n with
  | zero => intro s _ sql args e h; simp [renderF] at h
  | succ n ih =>
    intro s hgood sql args e h
    cases s with
    | null => simp [renderF] at h
    | expr sql0 args0 =>
      simp only [renderF] at h
      split at h
      · simp only [Option.some.injEq, RendRes.res.injEq] at h
        obtain ⟨_, h2, h3⟩ := h
        subst h2
        subst h3
        exact ⟨rfl, by simpa [goodS] using hgood⟩
      · exact renderLoop_good (fun s hs sql args e hre => ih s hs sql args e hre)
          _ _ (by simpa [goodS] using hgood) _ _ _ h
    | part pred args0 =>
      simp only [goodS] at hgood
      cases pred with
      | null =>
        simp only [renderF, Option.some.injEq, RendRes.res.injEq] at h
        obtain ⟨_, h2, h3⟩ := h
        subst h2
        subst h3
        exact ⟨rfl, by simp [goodArgs]⟩
      | str s0 =>
        simp only [renderF, Option.some.injEq, RendRes.res.injEq] at h
        obtain ⟨_, h2, h3⟩ := h
        subst h2
        subst h3
        exact ⟨rfl, hgood.2⟩
      | sqlizer s' => exact ih s' (by simpa [goodPred] using hgood.1) _ _ _ (by simpa [renderF] using h)
      | bad => simp [goodPred] at hgood
    | concat parts =>
      exact renderConcat_good (fun s hs sql args e hre => ih s hs sql args e hre)
        _ (by simpa [goodS] using hgood) _ _ _ (by simpa [renderF] using h)
    | conj parts sep dflt =>
      cases parts with
      | nil =>
        simp only [renderF, Option.some.injEq, RendRes.res.injEq] at h
        obtain ⟨_, h2, h3⟩ := h
        subst h2
        subst h3
        exact ⟨rfl, by simp [goodArgs]⟩
      | cons p prest =>
        obtain ⟨hne, hpa⟩ := renderConjParts_good
          (fun s hs sql args e hre => ih s hs sql args e hre)
          (p :: prest) (by simpa [goodS] using hgood)
        simp only [renderF] at h
        cases hcp : renderConjParts (renderF n) (p :: prest) with
        | fuel => rw [hcp] at h; simp at h
        | panic => rw [hcp] at h; simp at h
        | err e0 => exact absurd hcp (hne e0)
        | parts sqlParts args0 =>
          rw [hcp] at h
          simp only [Option.some.injEq, RendRes.res.injEq] at h
          obtain ⟨_, h2, h3⟩ := h
          subst h2
          subst h3
          exact ⟨rfl, hpa _ _ hcp⟩

/-- The total renderer returns no error and good output arguments on good
input. -/
theorem render_good {s : Sqlizer} (hgood : goodS s) {sql : Str} {args : List EArg}
    {e : Option Err} (h : render s = .res sql args e) : e = none ∧ goodArgs args := by
  unfold render at h
  cases hf : renderF (sqSize s) s with
  | none => rw [hf] at h; simp at h
  | some rr =>
    rw [hf] at h
    simp only [Option.getD_some] at h
    subst h
    exact renderF_good _ _ hgood _ _ _ hf

/-- Inversion of a successful `Except.bind`. -/
theorem bind_ok_inv {α β : Type} {x : Except RedErr α} {f : α → Red β} {b : β}
    (h : Except.bind x f = .ok b) : ∃ a, x = .ok a ∧ f a = .ok b := by
  cases x with
  | error e => simp [Except.bind] at h
  | ok a => exact ⟨a, rfl, by simpa [Except.bind] using h⟩

/-- A nil sqlizer is good. -/
theorem goodS_null : goodS Sqlizer.null := by simp [goodS]

/-- A successful `Expr` is the literal `expr` node. -/
theorem Expr_ok {sql : Str} {args : List EArg} {s : Sqlizer}
    (h : Expr sql args = .ok s) : s = .expr sql args := by
  unfold Expr at h
  split at h <;> simp_all

/-- `valueToResult` preserves goodness of the carried sqlizer. -/
theorem valueToResult_good {b : Bool} {v : Option Value} {s : Sqlizer} {r : Result}
    (hs : goodS s) (h : valueToResult b v s = .ok r) : goodS r.sqlizer := by
  unfold valueToResult at h
  cases v with
  | none =>
    injection h with h
    subst h
    exact hs
  | some w =>
    cases htv : toVariable w with
    | none =>
      simp only [htv] at h
      injection h with h
      subst h
      exact hs
    | some name =>
      simp only [htv, bind, Except.bind] at h
      cases hE : Expr name [] with
      | error e => rw [hE] at h; exact Except.noConfusion h
      | ok ex =>
        rw [hE] at h
        injection h with h
        subst h
        rw [Expr_ok hE]
        simp [goodS, goodArgs]

/-- Goodness of a binary `AndExpr`/`OrExpr` over good sqlizers. -/
theorem goodS_conj2 {a b : Sqlizer} (ha : goodS a) (hb : goodS b) (sep dflt : Str) :
    goodS (.conj [a, b] sep dflt) := by
  simp only [goodS, goodConjList]
  exact ⟨ha, hb, trivial⟩

/-- `result.And`'s fall-through preserves goodness. -/
theorem Result.andRight_good {l r res : Result} (hl : goodS l.sqlizer)
    (hr : goodS r.sqlizer) (h : Result.andRight l r = .ok res) : goodS res.sqlizer := by
  unfold Result.andRight at h
  split at h
  · split at h
    · exact Except.noConfusion h
    · injection h with h; subst h; exact hl
    · exact valueToResult_good (goodS_conj2 hl hr _ _) h
  · exact valueToResult_good (goodS_conj2 hl hr _ _) h

/-- `result.And` preserves goodness. -/
theorem Result.and_good {l r res : Result} (hl : goodS l.sqlizer)
    (hr : goodS r.sqlizer) (h : Result.and l r = .ok res) : goodS res.sqlizer := by
  unfold Result.and at h
  split at h
  · split at h
    · exact Except.noConfusion h
    · injection h with h; subst h; exact hr
    · exact Result.andRight_good hl hr h
  · exact Result.andRight_good hl hr h

/-- `result.Or`'s fall-through preserves goodness. -/
theorem Result.orRight_good {l r res : Result} (hl : goodS l.sqlizer)
    (hr : goodS r.sqlizer) (h : Result.orRight l r = .ok res) : goodS res.sqlizer := by
  unfold Result.orRight at h
  split at h
  · split at h
    · exact Except.noConfusion h
    · injection h with h; subst h; exact hl
    · exact valueToResult_good (goodS_conj2 hl hr _ _) h
  · exact valueToResult_good (goodS_conj2 hl hr _ _) h

/-- `result.Or` preserves goodness. -/
theorem Result.or_good {l r res : Result} (hl : goodS l.sqlizer)
    (hr : goodS r.sqlizer) (h : Result.or l r = .ok res) : goodS res.sqlizer := by
  unfold Result.or at h
  split at h
  · split at h
    · exact Except.noConfusion h
    · injection h with h; subst h; exact hr
    · exact Result.orRight_good hl hr h
  · exact Result.orRight_good hl hr h

/-- A two-argument emission from `Compare`/`JsonCompareText`/`toSqlIn`
preserves goodness: the sqlizer arguments are good, scalars are free. -/
theorem valueToResult_expr2_good {t : Str} {a b : EArg} {r : Result}
    (ha : goodArgs [a, b])
    (h : Except.bind (Expr t [a, b]) (fun e => valueToResult false none e) = .ok r) :
    goodS r.sqlizer := by
  obtain ⟨ex, hE, h⟩ := bind_ok_inv h
  rw [Expr_ok hE] at h
  exact valueToResult_good (by simpa [goodS] using ha) h

/-- `result.Compare` preserves goodness. -/
theorem Result.compare_good {l r res : Result} {t : Str} (hl : goodS l.sqlizer)
    (hr : goodS r.sqlizer) (h : Result.compare l r t = .ok res) : goodS res.sqlizer := by
  unfold Result.compare at h
  split at h
  · simp only [bind] at h
    obtain ⟨arg, _, h⟩ := bind_ok_inv h
    exact valueToResult_expr2_good (by simpa [goodArgs] using hr) h
  · split at h
    · simp only [bind] at h
      obtain ⟨arg, _, h⟩ := bind_ok_inv h
      exact valueToResult_expr2_good (by simpa [goodArgs] using hl) h
    · simp only [bind] at h
      exact valueToResult_expr2_good (by simp [goodArgs]; exact ⟨hl, hr⟩) h

/-- `result.JsonCompareText` preserves goodness. -/
theorem Result.jsonCompareText_good {l r res : Result} {t : Str} (hl : goodS l.sqlizer)
    (hr : goodS r.sqlizer) (h : Result.jsonCompareText l r t = .ok res) :
    goodS res.sqlizer := by
  unfold Result.jsonCompareText at h
  split at h
  · exact Except.noConfusion h
  · split at h
    · simp only [bind] at h
      obtain ⟨arg, _, h⟩ := bind_ok_inv h
      exact valueToResult_expr2_good (by simpa [goodArgs] using hl) h
    · simp only [bind] at h
      exact valueToResult_expr2_good (by simp [goodArgs]; exact ⟨hl, hr⟩) h

/-- The binary dispatch preserves goodness. -/
theorem toSqlBinaryTail_good {node : Node} {lR rR : Result} {env : Env} {r : Result}
    (hl : goodS lR.sqlizer) (hr : goodS rR.sqlizer)
    (h : toSqlBinaryTail node lR rR env = .ok r) : goodS r.sqlizer := by
  unfold toSqlBinaryTail at h
  split at h
  · simp only [bind] at h
    obtain ⟨val, _, h⟩ := bind_ok_inv h
    exact valueToResult_good goodS_null h
  · split at h
    case _ => exact Result.and_good hl hr h
    case _ => exact Result.or_good hl hr h
    all_goals
      first
      | exact Result.compare_good hl hr h
      | exact Result.jsonCompareText_good hl hr h
      | exact Except.noConfusion h

/-- `toAccess`'s tail builds a string `part` (good by construction). -/
theorem toAccessTail_good {aR : Result} {f : Str} {env : Env} {m : Mapper} {r : Result}
    (ha : goodS aR.sqlizer) (h : toAccessTail aR f env m = .ok r) : goodS r.sqlizer := by
  unfold toAccessTail at h
  split at h
  · split at h
    · simp only [bind] at h
      obtain ⟨val, _, h⟩ := bind_ok_inv h
      exact valueToResult_good goodS_null h
    · exact Except.noConfusion h
  · split at h
    · exact Except.noConfusion h
    · exact Except.noConfusion h
    · rename_i sql args hrend
      split at h
      · exact Except.noConfusion h
      · obtain ⟨_, hga⟩ := render_good (by simp [goodS, goodCElems]; exact ha) hrend
        exact valueToResult_good (by simpa [goodS, newPart, goodPred] using hga) h

/-- `toSqlHas`'s tail wraps a checked `Expr` (good by construction). -/
theorem toSqlHasTail_good {aR : Result} {f : Str} {env : Env} {m : Mapper} {r : Result}
    (ha : goodS aR.sqlizer) (h : toSqlHasTail aR f env m = .ok r) : goodS r.sqlizer := by
  unfold toSqlHasTail at h
  split at h
  · split at h
    · simp only [bind] at h
      obtain ⟨val, _, h⟩ := bind_ok_inv h
      exact valueToResult_good goodS_null h
    · exact Except.noConfusion h
  · split at h
    · exact Except.noConfusion h
    · exact Except.noConfusion h
    · rename_i sql args hrend
      split at h
      · exact Except.noConfusion h
      · simp only [bind] at h
        obtain ⟨inner, hinner, h⟩ := bind_ok_inv h
        obtain ⟨outer, houter, h⟩ := bind_ok_inv h
        obtain ⟨_, hga⟩ := render_good (by simp [goodS, goodCElems]; exact ha) hrend
        rw [Expr_ok houter] at h
        refine valueToResult_good ?_ h
        rw [Expr_ok hinner]
        simpa [goodS, goodArgs] using hga

/-- `toSqlNot`'s tail preserves goodness. -/
theorem toSqlNotTail_good {aR : Result} {env : Env} {r : Result}
    (ha : goodS aR.sqlizer) (h : toSqlNotTail aR env = .ok r) : goodS r.sqlizer := by
  unfold toSqlNotTail at h
  split at h
  · split at h
    · simp only [bind] at h
      obtain ⟨val, _, h⟩ := bind_ok_inv h
      exact valueToResult_good goodS_null h
    · exact Except.noConfusion h
  · simp only [bind] at h
    obtain ⟨ex, hE, h⟩ := bind_ok_inv h
    rw [Expr_ok hE] at h
    exact valueToResult_good (by simpa [goodS, goodArgs] using ha) h

/-- `toSqlEmpty`'s tail preserves goodness. -/
theorem toSqlEmptyTail_good {aR : Result} {env : Env} {r : Result}
    (ha : goodS aR.sqlizer) (h : toSqlEmptyTail aR env = .ok r) : goodS r.sqlizer := by
  unfold toSqlEmptyTail at h
  split at h
  · split at h
    · simp only [bind] at h
      obtain ⟨val, _, h⟩ := bind_ok_inv h
      exact valueToResult_good goodS_null h
    · exact Except.noConfusion h
  · simp only [bind] at h
    obtain ⟨ex, hE, h⟩ := bind_ok_inv h
    rw [Expr_ok hE] at h
    exact valueToResult_good (by simpa [goodS, goodArgs] using ha) h

/-- `toSqlVariable` yields a good sqlizer. -/
theorem toSqlVariableR_good {name : Str} {env : Env} {r : Result}
    (h : toSqlVariableR name env = .ok r) : goodS r.sqlizer := by
  unfold toSqlVariableR at h
  simp only [bind] at h
  obtain ⟨val, _, h⟩ := bind_ok_inv h
  exact valueToResult_good goodS_null h

/-- `toSqlIn`'s tail preserves goodness. -/
theorem toSqlInTail_good {lR rR : Result} {env : Env} {r : Result}
    (hl : goodS lR.sqlizer) (hr : goodS rR.sqlizer)
    (h : toSqlInTail lR rR env = .ok r) : goodS r.sqlizer := by
  unfold toSqlInTail at h
  split at h
  · split at h
    · simp only [bind] at h
      obtain ⟨val, _, h⟩ := bind_ok_inv h
      exact valueToResult_good goodS_null h
    · exact Except.noConfusion h
  · split at h
    · simp only [bind] at h
      obtain ⟨arg, _, h⟩ := bind_ok_inv h
      exact valueToResult_expr2_good (by simpa [goodArgs] using hr) h
    · split at h
      · exact Except.noConfusion h
      · simp only [bind] at h
        exact valueToResult_expr2_good (by simp [goodArgs]; exact ⟨hr, hl⟩) h

/-- The reducer only produces good sqlizers. -/
theorem toSqlOrValue_good (env : Env) (m : Mapper) :
    ∀ node r, toSqlOrValue env m node = .ok r → goodS r.sqlizer := by
  intro node
  induction node using toSqlOrValue.induct
  case env => exact env
  case mapper => exact m
  all_goals intro r h
  all_goals simp only [toSqlOrValue, bind, reduceIte] at h
  all_goals try split at h
  all_goals
    first
    | exact Except.noConfusion h
    | exact toSqlVariableR_good h
    | exact valueToResult_good goodS_null h
    | (obtain ⟨aR, haR, h⟩ := bind_ok_inv h
       first
       | exact valueToResult_good goodS_null h
       | (obtain ⟨rR, hrR, h⟩ := bind_ok_inv h
          have hgl : goodS aR.sqlizer := by solve_by_elim
          have hgr : goodS rR.sqlizer := by solve_by_elim
          first
          | exact toSqlInTail_good hgl hgr h
          | exact toSqlBinaryTail_good hgl hgr h)
       | (have hga : goodS aR.sqlizer := by solve_by_elim
          first
          | exact toAccessTail_good hga h
          | exact toSqlHasTail_good hga h
          | exact toSqlNotTail_good hga h
          | exact toSqlEmptyTail_good hga h))

/-- Claim C9: failure is total — whenever `ToSql` or `AuthorizeSQL` returns
an error, the SQL text and the argument list are empty; no partial SQL
accompanies an error. -/
theorem failure_is_total :
    (∀ (node : Node) (env : Env) (m : Mapper) (sql : Str) (args : List EArg) (e : Err),
      toSql node env m = .res sql args (some e) → sql = [] ∧ args = []) ∧
    (∀ (policies : List Policy) (entities : List Entity) (req : AuthorizeSQLRequest)
      (sql : Str) (args : List EArg) (e : Err),
      authorizeSQL policies entities req = .res sql args (some e) → sql = [] ∧ args = []) := by
  have hToSql : ∀ (node : Node) (env : Env) (m : Mapper) (sql : Str) (args : List EArg)
      (e : Err), toSql node env m = .res sql args (some e) → sql = [] ∧ args = [] := by
    intro node env m sql args e h
    unfold toSql at h
    cases hred : toSqlOrValue env m node with
    | error re =>
      cases re with
      | panic => rw [hred] at h; exact RendRes.noConfusion h
      | err e0 =>
        rw [hred] at h
        simp only [RendRes.res.injEq] at h
        exact ⟨h.1.symm, h.2.1.symm⟩
    | ok r =>
      rw [hred] at h
      dsimp only at h
      split at h
      · split at h
        · simp at h
        · simp at h
        · simp only [RendRes.res.injEq] at h
          exact ⟨h.1.symm, h.2.1.symm⟩
      · obtain ⟨habs, _⟩ := render_good (toSqlOrValue_good env m node r hred) h
        exact Option.noConfusion habs
  refine ⟨hToSql, ?_⟩
  intro policies entities req sql args e h
  unfold authorizeSQL at h
  cases hcl : classify (authEnv entities req) 0 policies with
  | error e0 =>
    simp only [hcl] at h
    simp only [RendRes.res.injEq] at h
    exact ⟨h.1.symm, h.2.1.symm⟩
  | ok c =>
    simp only [hcl] at h
    exact hToSql _ _ _ _ _ _ h

/-- Witness for C9 at a concrete erroring input (a bare non-boolean value
is a type error at the top level). -/
theorem failure_is_total_witness :
    toSql (.value (.str "x".toList)) ctxEnv defaultFieldMapper =
      .res [] [] (some .typeMismatch) ∧ ([] : Str) = [] ∧ ([] : List EArg) = [] :=
  ⟨rfl, failure_is_total.1 (.value (.str "x".toList)) ctxEnv defaultFieldMapper [] [] .typeMismatch rfl⟩

/-- Claim C5 (counterexample): on a successful `Contains` translation the
rendered JSON operator is a bare `?` in the output text, so the output has
two `?` characters (both unescaped — `countPlaceholders` also counts 2) but
only one argument. -/
theorem placeholder_arity_counterexample :
    toSql (.contains ctxFoo (.value (.str "x".toList))) ctxEnv defaultFieldMapper =
      .res "context.foo ? ?".toList [.scalar (.str "x".toList)] none ∧
    charQ "context.foo ? ?".toList = 2 ∧
    countPlaceholders "context.foo ? ?".toList = 2 ∧
    [EArg.scalar (.str "x".toList)].length = 1 :=
  ⟨rfl, rfl, rfl, rfl⟩

/-! ## Placeholder-arity well-formedness (for C5's amended claim) -/

/-- No `"??"` escape occurs in the string (every `?` is a placeholder). -/
def noQQ : Str → Prop
  | [] => True
  | [_] => True
  | c :: c2 :: rest => ¬(c = '?' ∧ c2 = '?') ∧ noQQ (c2 :: rest)

/-- `charQ` distributes over append. -/
theorem charQ_append (a b : Str) : charQ (a ++ b) = charQ a + charQ b := by
  induction a with
  | nil => simp [charQ]
  | cons c rest ih => simp [charQ, ih]; omega

/-- A string without `?` characters has no escapes. -/
theorem noQQ_of_charQ_zero : ∀ {s : Str}, charQ s = 0 → noQQ s := by
  intro s
  induction s using noQQ.induct with
  | case1 => intro _; trivial
  | case2 c => intro _; trivial
  | case3 c c2 rest ih =>
    intro h
    simp only [charQ] at h
    refine ⟨fun ⟨h1, _⟩ => by simp [h1] at h, ih ?_⟩
    simp only [charQ]
    omega

/-- Unfolding `countPlaceholders` at an unescaped `?` (the next character,
if any, is not `?`). -/
theorem countPlaceholders_cons_q {rest : Str}
    (hne : ∀ r1, rest = '?' :: r1 → False) :
    countPlaceholders ('?' :: rest) = 1 + countPlaceholders rest :=
  countPlaceholders.eq_3 rest hne

/-- Unfolding `countPlaceholders` at a non-`?` character. -/
theorem countPlaceholders_cons_other {c : Char} {rest : Str} (hc : ¬ c = '?') :
    countPlaceholders (c :: rest) = countPlaceholders rest :=
  countPlaceholders.eq_4 c rest (fun _ hq _ => hc hq) hc

/-- `countPlaceholders` never exceeds the number of `?` characters. -/
theorem countPlaceholders_le_charQ : ∀ s : Str, countPlaceholders s ≤ charQ s := by
  intro s
  induction s using countPlaceholders.induct with
  | case1 => simp [countPlaceholders, charQ]
  | case2 rest ih =>
    simp only [countPlaceholders.eq_2, charQ, reduceIte]
    omega
  | case3 rest hg ih =>
    rw [countPlaceholders_cons_q fun r1 hr => hg r1 hr]
    simp only [charQ, reduceIte]
    omega
  | case4 head rest hg1 hg2 ih =>
    have hc : ¬ head = '?' := fun h => hg2 h
    rw [countPlaceholders_cons_other hc]
    simp only [charQ, if_neg hc]
    omega

/-- If every `?` counts as a placeholder, there are no escapes. -/
theorem noQQ_of_countPlaceholders_eq :
    ∀ s : Str, countPlaceholders s = charQ s → noQQ s := by
  intro s
  induction s using noQQ.induct with
  | case1 => intro _; trivial
  | case2 c => intro _; trivial
  | case3 c c2 rest ih =>
    intro h
    by_cases hc : c = '?'
    · subst hc
      by_cases hc2 : c2 = '?'
      · subst hc2
        simp only [countPlaceholders.eq_2, charQ, reduceIte] at h
        have := countPlaceholders_le_charQ rest
        omega
      · rw [countPlaceholders_cons_q (fun r1 hr => hc2 (by injection hr))] at h
        simp only [charQ, reduceIte] at h
        refine ⟨fun hand => hc2 hand.2, ih ?_⟩
        simp only [charQ, reduceIte]
        omega
    · rw [countPlaceholders_cons_other hc] at h
      simp only [charQ, if_neg hc] at h
      exact ⟨fun hand => hc hand.1, ih (by simp only [charQ]; omega)⟩

/-- The tail of a `noQQ` string is `noQQ`. -/
theorem noQQ_tail : ∀ {c : Char} {rest : Str}, noQQ (c :: rest) → noQQ rest := by
  intro c rest h
  cases rest with
  | nil => trivial
  | cons c2 r2 => exact h.2

mutual
/-- Placeholder-arity well-formedness: every `expr` template is escape-free
with as many `?` as arguments, every string `part` carries as many `?` as
arguments, every plain concat element is `?`-free, and conjunction
separators and identities are `?`-free. -/
def wfS : Sqlizer → Prop
  | .expr sql args => noQQ sql ∧ charQ sql = args.length ∧ wfArgs args
  | .part (.str s) args => charQ s = args.length ∧ wfArgs args
  | .part (.sqlizer s) _ => wfS s
  | .part .null _ => True
  | .part .bad _ => True
  | .concat parts => wfCElems parts
  | .conj parts sep dflt => charQ sep = 0 ∧ charQ dflt = 0 ∧ wfConjList parts
  | .null => True

/-- Arity well-formedness of an argument list. -/
def wfArgs : List EArg → Prop
  | [] => True
  | .scalar _ :: rest => wfArgs rest
  | .sqlizer s :: rest => wfS s ∧ wfArgs rest

/-- Arity well-formedness of concat elements. -/
def wfCElems : List CElem → Prop
  | [] => True
  | .str s :: rest => charQ s = 0 ∧ wfCElems rest
  | .cstr s :: rest => charQ s = 0 ∧ wfCElems rest
  | .sqlizer s :: rest => wfS s ∧ wfCElems rest
  | .bad :: _ => True

/-- Arity well-formedness of conjunction parts. -/
def wfConjList : List Sqlizer → Prop
  | [] => True
  | s :: rest => wfS s ∧ wfConjList rest
end

/-- Appending preserves arity-wellformedness of argument lists. -/
theorem wfArgs_append {a b : List EArg} (ha : wfArgs a) (hb : wfArgs b) :
    wfArgs (a ++ b) := by
  induction a with
  | nil => simpa using hb
  | cons x rest ih =>
    cases x with
    | scalar v =>
      simp only [wfArgs, List.cons_append] at ha ⊢
      exact ih ha
    | sqlizer s =>
      simp only [wfArgs, List.cons_append] at ha ⊢
      exact ⟨ha.1, ih ha.2⟩

/-- Splitting arity-wellformedness of argument lists. -/
theorem wfArgs_cons {a : EArg} {rest : List EArg} (h : wfArgs (a :: rest)) :
    wfArgs rest := by
  cases a <;> simp only [wfArgs] at h
  · exact h
  · exact h.2

/-- The renderer invariant for nested render callbacks in the arity
argument. -/
def RndArity (rnd : Sqlizer → Option RendRes) : Prop :=
  ∀ s, wfS s → ∀ sql args, rnd s = some (.res sql args none) →
    charQ sql = args.length ∧ wfArgs args

/-- The `expr.ToSql` loop yields as many `?` characters as arguments when
the template is escape-free with matching arity. -/
theorem renderLoop_arity {rnd : Sqlizer → Option RendRes} (hr : RndArity rnd) :
    ∀ sp ap, noQQ sp → charQ sp = ap.length → wfArgs ap → ∀ sql args,
      renderLoop rnd sp ap = some (.res sql args none) →
      charQ sql = args.length ∧ wfArgs args := by
  intro sp ap
  induction sp, ap using renderLoop.induct rnd
  all_goals intro hq hlen hwa sql args h
  case case1 sp =>
    simp only [renderLoop, Option.some.injEq, RendRes.res.injEq] at h
    obtain ⟨h1, h2, _⟩ := h
    subst h1
    subst h2
    simp only [List.length_nil] at hlen
    exact ⟨by simpa using hlen, by simp [wfArgs]⟩
  case case2 a ap =>
    simp only [charQ, List.length_cons] at hlen
    omega
  case case3 a ap rest2 ih =>
    exact absurd ⟨rfl, rfl⟩ hq.1
  case case4 ap c2 rest2 hc2 v ih =>
    simp only [renderLoop, reduceIte, if_neg hc2] at h
    obtain ⟨s', a', hrec, hsql, hargs⟩ := prepend_res h
    have hlen' : charQ (c2 :: rest2) = ap.length := by
      simp only [charQ, reduceIte, List.length_cons] at hlen ⊢
      omega
    obtain ⟨hc, hwa'⟩ := ih (noQQ_tail hq) hlen' (wfArgs_cons hwa) _ _ hrec
    subst hsql
    subst hargs
    constructor
    · rw [charQ_append]
      simp only [charQ, reduceIte, List.length_cons, List.length_append,
        List.length_singleton, List.length_nil]
      omega
    · simpa [wfArgs] using hwa'
  case case5 ap c2 rest2 hc2 s hs =>
    simp [renderLoop, if_neg hc2, hs] at h
  case case6 ap c2 rest2 hc2 s hs =>
    simp [renderLoop, if_neg hc2, hs] at h
  case case7 ap c2 rest2 hc2 s isql iargs hs ih =>
    simp only [wfArgs] at hwa
    obtain ⟨hqi, hwi⟩ := hr s hwa.1 _ _ hs
    simp only [renderLoop, reduceIte, if_neg hc2, hs] at h
    obtain ⟨s', a', hrec, hsql, hargs⟩ := prepend_res h
    have hlen' : charQ (c2 :: rest2) = ap.length := by
      simp only [charQ, reduceIte, List.length_cons] at hlen ⊢
      omega
    obtain ⟨hc, hwa'⟩ := ih (noQQ_tail hq) hlen' hwa.2 _ _ hrec
    subst hsql
    subst hargs
    refine ⟨?_, wfArgs_append hwi hwa'⟩
    rw [charQ_append]
    simp only [charQ, reduceIte, List.length_cons, List.length_append,
      List.length_singleton, List.length_nil]
    omega
  case case8 ap c2 rest2 hc2 s isql iargs e0 hs =>
    simp [renderLoop, if_neg hc2, hs] at h
  case case9 ap v ih =>
    simp only [renderLoop, reduceIte] at h
    obtain ⟨s', a', hrec, hsql, hargs⟩ := prepend_res h
    have hlen' : charQ ([] : Str) = ap.length := by
      simp only [charQ, reduceIte, List.length_cons] at hlen ⊢
      omega
    obtain ⟨hc, hwa'⟩ := ih trivial hlen' (wfArgs_cons hwa) _ _ hrec
    subst hsql
    subst hargs
    constructor
    · rw [charQ_append]
      simp only [charQ, reduceIte, List.length_cons, List.length_append,
        List.length_singleton, List.length_nil]
      omega
    · simpa [wfArgs] using hwa'
  case case10 ap s hs =>
    simp [renderLoop, hs] at h
  case case11 ap s hs =>
    simp [renderLoop, hs] at h
  case case12 ap s isql iargs hs ih =>
    simp only [wfArgs] at hwa
    obtain ⟨hqi, hwi⟩ := hr s hwa.1 _ _ hs
    simp only [renderLoop, reduceIte, hs] at h
    obtain ⟨s', a', hrec, hsql, hargs⟩ := prepend_res h
    have hlen' : charQ ([] : Str) = ap.length := by
      simp only [charQ, reduceIte, List.length_cons] at hlen ⊢
      omega
    obtain ⟨hc, hwa'⟩ := ih trivial hlen' hwa.2 _ _ hrec
    subst hsql
    subst hargs
    refine ⟨?_, wfArgs_append hwi hwa'⟩
    rw [charQ_append]
    simp only [charQ, reduceIte, List.length_cons, List.length_append,
      List.length_singleton, List.length_nil]
    omega
  case case13 ap s isql iargs e0 hs =>
    simp [renderLoop, hs] at h
  case case14 c rest a ap hc ih =>
    rw [renderLoop.eq_def] at h
    simp only [hc, if_false, reduceIte] at h
    obtain ⟨s', a', hrec, hsql, hargs⟩ := prepend_res h
    have hlen' : charQ rest = (a :: ap).length := by
      simp only [charQ, if_neg hc] at hlen
      omega
    obtain ⟨hcq, hwa'⟩ := ih (noQQ_tail hq) hlen' hwa _ _ hrec
    subst hsql
    subst hargs
    refine ⟨?_, by simpa using hwa'⟩
    rw [charQ_append]
    simp only [charQ, if_neg hc]
    omega

/-- `replaceAll` on the empty string. -/
theorem replaceQQ_nil : replaceQQ [] = [] := by
  rw [replaceQQ.eq_def]

/-- `replaceQQ` is the identity on escape-free strings. -/
theorem replaceQQ_of_noQQ : ∀ s : Str, noQQ s → replaceQQ s = s := by
  intro s
  induction s using noQQ.induct with
  | case1 => intro _; rfl
  | case2 c => intro _; rw [replaceQQ.eq_def]; split <;> simp_all [replaceQQ_nil]
  | case3 c c2 rest ih =>
    intro h
    rw [replaceQQ.eq_def]
    split
    · rename_i heq
      exact absurd heq (by simp)
    · rename_i r heq
      obtain ⟨h1, h2⟩ := List.cons.inj heq
      exact absurd ⟨h1, (List.cons.inj h2).1⟩ h.1
    · rename_i c' rest' heq
      obtain ⟨h1, h2⟩ := List.cons.inj heq
      subst h1
      subst h2
      rw [ih h.2]

/-- `concatExpr.ToSql` yields as many `?` characters as arguments on
well-formed input. -/
theorem renderConcat_arity {rnd : Sqlizer → Option RendRes} (hr : RndArity rnd) :
    ∀ parts, wfCElems parts → ∀ sql args,
      renderConcat rnd parts = some (.res sql args none) →
      charQ sql = args.length ∧ wfArgs args := by
  intro parts
  induction parts with
  | nil =>
    intro _ sql args h
    simp only [renderConcat, Option.some.injEq, RendRes.res.injEq] at h
    obtain ⟨h1, h2, _⟩ := h
    subst h1
    subst h2
    exact ⟨rfl, by simp [wfArgs]⟩
  | cons p rest ih =>
    intro hwf sql args h
    cases p with
    | str s =>
      simp only [wfCElems] at hwf
      simp only [renderConcat] at h
      obtain ⟨s', a', hrec, hsql, hargs⟩ := prepend_res h
      obtain ⟨hc, hwa⟩ := ih hwf.2 _ _ hrec
      subst hsql
      subst hargs
      refine ⟨?_, by simpa using hwa⟩
      rw [charQ_append, hwf.1, hc]
      simp
    | cstr s =>
      simp only [wfCElems] at hwf
      simp only [renderConcat] at h
      obtain ⟨s', a', hrec, hsql, hargs⟩ := prepend_res h
      obtain ⟨hc, hwa⟩ := ih hwf.2 _ _ hrec
      subst hsql
      subst hargs
      refine ⟨?_, by simpa using hwa⟩
      rw [charQ_append, hwf.1, hc]
      simp
    | bad => simp [renderConcat] at h
    | sqlizer s =>
      simp only [wfCElems] at hwf
      simp only [renderConcat] at h
      cases hs : rnd s with
      | none => rw [hs] at h; simp at h
      | some rr =>
        cases rr with
        | panic => rw [hs] at h; simp at h
        | res psql pargs pe =>
          rw [hs] at h
          cases pe with
          | some e => simp at h
          | none =>
            obtain ⟨hqp, hwp⟩ := hr s hwf.1 _ _ hs
            obtain ⟨s', a', hrec, hsql, hargs⟩ := prepend_res h
            obtain ⟨hc, hwa⟩ := ih hwf.2 _ _ hrec
            subst hsql
            subst hargs
            refine ⟨?_, wfArgs_append hwp hwa⟩
            rw [charQ_append]
            simp only [List.length_append]
            omega

/-- Total `?`-character count over a list of part strings. -/
def charQSum : List Str → Nat
  | [] => 0
  | s :: rest => charQ s + charQSum rest

/-- Joining with a `?`-free separator preserves the total count. -/
theorem joinSep_charQ {sep : Str} (hsep : charQ sep = 0) :
    ∀ l : List Str, charQ (joinSep sep l) = charQSum l := by
  intro l
  induction l using joinSep.induct sep with
  | case1 => rfl
  | case2 s => simp [joinSep, charQSum, charQ]
  | case3 s rest hne ih =>
    have hj : joinSep sep (s :: rest) = s ++ sep ++ joinSep sep rest := by
      rw [joinSep.eq_def]
      split <;> simp_all
    rw [hj, charQ_append, charQ_append, hsep, ih]
    simp [charQSum]

/-- The `conj.ToSql` loop collects parts whose total `?`-count equals the
collected argument count, on well-formed input. -/
theorem renderConjParts_arity {rnd : Sqlizer → Option RendRes} (hr : RndArity rnd) :
    ∀ parts, wfConjList parts → ∀ sqlParts args,
      renderConjParts rnd parts = .parts sqlParts args →
      charQSum sqlParts = args.length ∧ wfArgs args := by
  intro parts
  induction parts with
  | nil =>
    intro _ sqlParts args h
    simp only [renderConjParts, ConjAcc.parts.injEq] at h
    rw [← h.1, ← h.2]
    exact ⟨rfl, by simp [wfArgs]⟩
  | cons s rest ih =>
    intro hwf sqlParts args h
    simp only [wfConjList] at hwf
    cases hs : rnd s with
    | none => simp [renderConjParts, hs] at h
    | some rr =>
      cases rr with
      | panic => simp [renderConjParts, hs] at h
      | res psql pargs pe =>
        cases pe with
        | some e => simp [renderConjParts, hs] at h
        | none =>
          obtain ⟨hqp, hwp⟩ := hr s hwf.1 _ _ hs
          rw [renderConjParts.eq_def] at h
          simp only [hs] at h
          by_cases hempty : psql = []
          · rw [if_pos hempty] at h
            exact ih hwf.2 _ _ h
          · rw [if_neg hempty] at h
            cases hrest : renderConjParts rnd rest <;> rw [hrest] at h <;>
              simp only [ConjAcc.parts.injEq] at h
            · exact ConjAcc.noConfusion h
            · exact ConjAcc.noConfusion h
            · exact ConjAcc.noConfusion h
            · obtain ⟨hsp, hargs⟩ := h
              obtain ⟨hcs, hwa⟩ := ih hwf.2 _ _ hrest
              rw [← hsp, ← hargs]
              refine ⟨?_, wfArgs_append hwp hwa⟩
              simp only [charQSum, List.length_append]
              omega

/-- The fueled renderer yields as many `?` characters as arguments on
well-formed input. -/
theorem renderF_arity : ∀ n s, wfS s → ∀ sql args,
    renderF n s = some (.res sql args none) → charQ sql = args.length ∧ wfArgs args := by
  intro n
  induction n with
  | zero => intro s _ sql args h; simp [renderF] at h
  | succ n ih =>
    intro s hwf sql args h
    cases s with
    | null => simp [renderF] at h
    | expr sql0 args0 =>
      obtain ⟨hq, hlen, hwa⟩ : noQQ sql0 ∧ charQ sql0 = args0.length ∧ wfArgs args0 := by
        simpa [wfS] using hwf
      simp only [renderF] at h
      split at h
      · simp only [Option.some.injEq, RendRes.res.injEq] at h
        obtain ⟨h1, h2, _⟩ := h
        subst h1
        subst h2
        rw [replaceQQ_of_noQQ _ hq]
        exact ⟨hlen, hwa⟩
      · exact renderLoop_arity (fun s hs sql args hre => ih s hs sql args hre)
          _ _ hq hlen hwa _ _ h
    | part pred args0 =>
      cases pred with
      | null =>
        simp only [renderF, Option.some.injEq, RendRes.res.injEq] at h
        obtain ⟨h1, h2, _⟩ := h
        subst h1
        subst h2
        exact ⟨rfl, by simp [wfArgs]⟩
      | str s0 =>
        obtain ⟨hc, hwa⟩ : charQ s0 = args0.length ∧ wfArgs args0 := by
          simpa [wfS] using hwf
        simp only [renderF, Option.some.injEq, RendRes.res.injEq] at h
        obtain ⟨h1, h2, _⟩ := h
        subst h1
        subst h2
        exact ⟨hc, hwa⟩
      | sqlizer s' =>
        exact ih s' (by simpa [wfS] using hwf) _ _ (by simpa [renderF] using h)
      | bad => simp [renderF] at h
    | concat parts =>
      exact renderConcat_arity (fun s hs sql args hre => ih s hs sql args hre)
        _ (by simpa [wfS] using hwf) _ _ (by simpa [renderF] using h)
    | conj parts sep dflt =>
      obtain ⟨hsep, hdflt, hwl⟩ : charQ sep = 0 ∧ charQ dflt = 0 ∧ wfConjList parts := by
        simpa [wfS] using hwf
      cases parts with
      | nil =>
        simp only [renderF, Option.some.injEq, RendRes.res.injEq] at h
        obtain ⟨h1, h2, _⟩ := h
        subst h1
        subst h2
        exact ⟨by simpa using hdflt, by simp [wfArgs]⟩
      | cons p prest =>
        simp only [renderF] at h
        cases hcp : renderConjParts (renderF n) (p :: prest) with
        | fuel => rw [hcp] at h; simp at h
        | panic => rw [hcp] at h; simp at h
        | err e0 => rw [hcp] at h; simp at h
        | parts sqlParts args0 =>
          rw [hcp] at h
          simp only [Option.some.injEq, RendRes.res.injEq] at h
          obtain ⟨h1, h2, _⟩ := h
          subst h1
          subst h2
          obtain ⟨hcs, hwa⟩ := renderConjParts_arity
            (fun s hs sql args hre => ih s hs sql args hre) _ hwl _ _ hcp
          refine ⟨?_, hwa⟩
          by_cases hempty : sqlParts = []
          · subst hempty
            simp only [charQSum] at hcs
            simpa [charQ] using hcs
          · rw [if_neg hempty]
            have hj := joinSep_charQ hsep sqlParts
            split
            · omega
            · have hpq : charQ (('(' :: joinSep sep sqlParts) ++ [')']) =
                  charQ (joinSep sep sqlParts) := by
                simp [charQ, charQ_append]
              rw [hpq]
              omega

/-- The total renderer yields as many `?` characters as arguments on
well-formed input. -/
theorem render_arity {s : Sqlizer} (hwf : wfS s) {sql : Str} {args : List EArg}
    (h : render s = .res sql args none) : charQ sql = args.length ∧ wfArgs args := by
  unfold render at h
  cases hf : renderF (sqSize s) s with
  | none => rw [hf] at h; simp at h
  | some rr =>
    rw [hf] at h
    simp only [Option.getD_some] at h
    subst h
    exact renderF_arity _ _ hwf _ _ hf

/-- `noQQ` strings count every `?` as a placeholder. -/
theorem countPlaceholders_of_noQQ : ∀ s : Str, noQQ s → countPlaceholders s = charQ s := by
  intro s
  induction s using noQQ.induct with
  | case1 => intro _; rfl
  | case2 c =>
    intro _
    by_cases hc : c = '?'
    · subst hc
      rw [countPlaceholders_cons_q (fun r1 hr => List.noConfusion hr)]
      simp [charQ, countPlaceholders]
    · rw [countPlaceholders_cons_other hc]
      simp [charQ, countPlaceholders, if_neg hc]
  | case3 c c2 rest ih =>
    intro h
    by_cases hc : c = '?'
    · subst hc
      have hc2 : ¬ c2 = '?' := fun h2 => h.1 ⟨rfl, h2⟩
      rw [countPlaceholders_cons_q (fun r1 hr => hc2 (by injection hr))]
      rw [ih h.2]
      simp only [charQ, reduceIte]
    · rw [countPlaceholders_cons_other hc, ih h.2]
      simp only [charQ, if_neg hc]
      omega

mutual
/-- A value carries only `?`-free variable names: every variable-sentinel
`EntityUID` reachable inside it has a `?`-free id (such names re-enter the
SQL text as `Expr` templates when the value is rewrapped by
`valueToResult`). -/
def vQF : Value → Prop
  | .entity ty id => ty = variableEntityType → charQ id = 0
  | .set elems => vQFList elems
  | .record fields => vQFFields fields
  | _ => True

/-- `vQF` over set elements. -/
def vQFList : List Value → Prop
  | [] => True
  | v :: rest => vQF v ∧ vQFList rest

/-- `vQF` over record fields. -/
def vQFFields : List (Str × Value) → Prop
  | [] => True
  | (_, v) :: rest => vQF v ∧ vQFFields rest
end

/-- Environment well-formedness for the arity claim: the four request
subjects and every stored attribute value carry only `?`-free variable
names. -/
def envQF (env : Env) : Prop :=
  vQF env.principal ∧ vQF env.action ∧ vQF env.resource ∧ vQF env.context ∧
  ∀ e ∈ env.entities, vQFFields e.attrs

/-- A mapper that preserves the `?` count of the paths it accepts (the
identity mapper, and any renaming between `?`-free paths, qualifies). -/
def MapQ (m : Mapper) : Prop := ∀ s t, m s = some t → charQ t = charQ s

mutual
/-- All literal values embedded in a node are `?`-free in the sense of
`vQF`. -/
def nodeVals : Node → Prop
  | .value v => vQF v
  | .var _ => True
  | .access a _ => nodeVals a
  | .has a _ => nodeVals a
  | .not a => nodeVals a
  | .isEmpty a => nodeVals a
  | .negate a => nodeVals a
  | .like a _ => nodeVals a
  | .is a _ => nodeVals a
  | .and l r => nodeVals l ∧ nodeVals r
  | .or l r => nodeVals l ∧ nodeVals r
  | .eq l r => nodeVals l ∧ nodeVals r
  | .ne l r => nodeVals l ∧ nodeVals r
  | .gt l r => nodeVals l ∧ nodeVals r
  | .ge l r => nodeVals l ∧ nodeVals r
  | .lt l r => nodeVals l ∧ nodeVals r
  | .le l r => nodeVals l ∧ nodeVals r
  | .add l r => nodeVals l ∧ nodeVals r
  | .sub l r => nodeVals l ∧ nodeVals r
  | .mult l r => nodeVals l ∧ nodeVals r
  | .contains l r => nodeVals l ∧ nodeVals r
  | .containsAll l r => nodeVals l ∧ nodeVals r
  | .containsAny l r => nodeVals l ∧ nodeVals r
  | .inn l r => nodeVals l ∧ nodeVals r
  | .getTag l r => nodeVals l ∧ nodeVals r
  | .isIn a e => nodeVals a ∧ nodeVals e
  | .ifThenElse c t e => nodeVals c ∧ nodeVals t ∧ nodeVals e
  | .record entries => nodeValsFields entries
  | .set elems => nodeValsList elems
  | .extensionCall _ => True

/-- `nodeVals` over set elements. -/
def nodeValsList : List Node → Prop
  | [] => True
  | n :: rest => nodeVals n ∧ nodeValsList rest

/-- `nodeVals` over record entries. -/
def nodeValsFields : List (Str × Node) → Prop
  | [] => True
  | (_, n) :: rest => nodeVals n ∧ nodeValsFields rest
end

/-- Generic `Except`-bind inversion on a successful result. -/
theorem bindE_ok_inv {ε α β : Type} {x : Except ε α} {f : α → Except ε β} {b : β}
    (h : Except.bind x f = .ok b) : ∃ a, x = .ok a ∧ f a = .ok b := by
  cases x with
  | error e => simp [Except.bind] at h
  | ok a => exact ⟨a, rfl, by simpa [Except.bind] using h⟩

/-- A successful attribute lookup in a `vQF` field list yields a `vQF`
value. -/
theorem lookupAttr_vQF : ∀ {l : List (Str × Value)}, vQFFields l →
    ∀ {f w}, lookupAttr f l = some w → vQF w := by
  intro l
  induction l with
  | nil => intro _ f w h; simp [lookupAttr] at h
  | cons kv rest ih =>
    obtain ⟨k, v⟩ := kv
    intro hl f w h
    simp only [vQFFields] at hl
    simp only [lookupAttr] at h
    split at h
    · injection h with h; subst h; exact hl.1
    · exact ih hl.2 h

/-- A successful entity lookup returns a member of the store. -/
theorem lookupEntity_mem : ∀ {store : List Entity} {ty id e},
    lookupEntity store ty id = some e → e ∈ store := by
  intro store
  induction store with
  | nil => intro ty id e h; simp [lookupEntity] at h
  | cons x rest ih =>
    intro ty id e h
    simp only [lookupEntity] at h
    split at h
    · injection h with h; subst h; exact List.mem_cons_self x rest
    · exact List.mem_cons_of_mem _ (ih h)

/-- Attribute access preserves `?`-freeness of values. -/
theorem evalAccess_vQF {env : Env} (he : envQF env) {v : Value} (hv : vQF v)
    {f : Str} {w : Value} (h : evalAccess env v f = .ok w) : vQF w := by
  unfold evalAccess at h
  split at h
  · rename_i fields
    split at h
    · injection h with h; subst h
      exact lookupAttr_vQF hv (by assumption)
    · exact Except.noConfusion h
  · rename_i ty id
    split at h
    · rename_i e hlook
      split at h
      · injection h with h; subst h
        exact lookupAttr_vQF (he.2.2.2.2 e (lookupEntity_mem hlook)) (by assumption)
      · exact Except.noConfusion h
    · exact Except.noConfusion h
  · exact Except.noConfusion h

/-- `evalHas` only returns booleans. -/
theorem evalHas_shape {env : Env} {v : Value} {f : Str} {w : Value}
    (h : evalHas env v f = .ok w) : ∃ b, w = .bool b := by
  unfold evalHas at h
  split at h
  · exact ⟨_, (Except.ok.inj h).symm⟩
  · split at h
    · exact ⟨_, (Except.ok.inj h).symm⟩
    · exact ⟨_, (Except.ok.inj h).symm⟩
  · exact Except.noConfusion h

/-- `evalIntCmp` only returns booleans. -/
theorem evalIntCmp_shape {a b : Value} {cmp : Int → Int → Bool} {w : Value}
    (h : evalIntCmp a b cmp = .ok w) : ∃ x, w = .bool x := by
  unfold evalIntCmp at h
  split at h
  · exact ⟨_, (Except.ok.inj h).symm⟩
  · exact Except.noConfusion h

/-- `evalIntOp` only returns integers. -/
theorem evalIntOp_shape {a b : Value} {op : Int → Int → Int} {w : Value}
    (h : evalIntOp a b op = .ok w) : ∃ x, w = .int x := by
  unfold evalIntOp at h
  split at h
  · exact ⟨_, (Except.ok.inj h).symm⟩
  · exact Except.noConfusion h

/-- The modelled evaluator preserves `?`-freeness: on a `?`-free environment
and a node whose literals are `?`-free, every successfully computed value is
`?`-free. -/
theorem evalN_vQF (env : Env) (he : envQF env) :
    ∀ n, nodeVals n → ∀ v, evalN env n = .ok v → vQF v := by
  intro n
  induction n using evalN.induct
  case env => exact env
  case motive_2 x => exact nodeValsList x → ∀ vs, evalNodeList env x = .ok vs → vQFList vs
  case motive_3 x => exact nodeValsFields x → ∀ fs, evalFieldList env x = .ok fs → vQFFields fs
  all_goals intro hn v h
  case case1 =>
    simp only [evalN] at h
    injection h with h
    subst h
    exact hn
  case case2 =>
    simp only [evalN, reduceIte] at h
    injection h with h
    subst h
    exact he.1
  case case3 =>
    simp only [evalN, reduceIte] at h
    injection h with h
    subst h
    exact he.2.1
  case case4 =>
    simp only [evalN, reduceIte] at h
    injection h with h
    subst h
    exact he.2.2.1
  case case5 =>
    simp only [evalN, reduceIte] at h
    injection h with h
    subst h
    exact he.2.2.2.1
  case case6 =>
    rename_i name h1 h2 h3 h4
    simp only [evalN, if_neg h1, if_neg h2, if_neg h3, if_neg h4] at h
    exact Except.noConfusion h
  case case7 =>
    rename_i a f ih
    simp only [evalN, bind] at h
    obtain ⟨w, hw, h⟩ := bindE_ok_inv h
    exact evalAccess_vQF he (ih hn w hw) h
  case case8 =>
    simp only [evalN, bind] at h
    obtain ⟨w, hw, h⟩ := bindE_ok_inv h
    obtain ⟨b, rfl⟩ := evalHas_shape h
    trivial
  case case9 =>
    simp only [evalN, bind] at h
    obtain ⟨w, hw, h⟩ := bindE_ok_inv h
    split at h
    · injection h with h; subst h; trivial
    · exact Except.noConfusion h
  case case10 =>
    simp only [evalN, bind] at h
    obtain ⟨w, hw, h⟩ := bindE_ok_inv h
    split at h
    · injection h with h; subst h; trivial
    · exact Except.noConfusion h
  case case11 =>
    simp only [evalN, bind] at h
    obtain ⟨w, hw, h⟩ := bindE_ok_inv h
    split at h
    · injection h with h; subst h; trivial
    · obtain ⟨w2, hw2, h⟩ := bindE_ok_inv h
      split at h
      · injection h with h; subst h; trivial
      · exact Except.noConfusion h
    · exact Except.noConfusion h
  case case12 =>
    simp only [evalN, bind] at h
    obtain ⟨w, hw, h⟩ := bindE_ok_inv h
    split at h
    · injection h with h; subst h; trivial
    · obtain ⟨w2, hw2, h⟩ := bindE_ok_inv h
      split at h
      · injection h with h; subst h; trivial
      · exact Except.noConfusion h
    · exact Except.noConfusion h
  case case13 =>
    simp only [evalN, bind] at h
    obtain ⟨w1, hw1, h⟩ := bindE_ok_inv h
    obtain ⟨w2, hw2, h⟩ := bindE_ok_inv h
    injection h with h
    subst h
    trivial
  case case14 =>
    simp only [evalN, bind] at h
    obtain ⟨w1, hw1, h⟩ := bindE_ok_inv h
    obtain ⟨w2, hw2, h⟩ := bindE_ok_inv h
    injection h with h
    subst h
    trivial
  case case15 =>
    simp only [evalN, bind] at h
    obtain ⟨w1, hw1, h⟩ := bindE_ok_inv h
    obtain ⟨w2, hw2, h⟩ := bindE_ok_inv h
    obtain ⟨x, rfl⟩ := evalIntCmp_shape h
    trivial
  case case16 =>
    simp only [evalN, bind] at h
    obtain ⟨w1, hw1, h⟩ := bindE_ok_inv h
    obtain ⟨w2, hw2, h⟩ := bindE_ok_inv h
    obtain ⟨x, rfl⟩ := evalIntCmp_shape h
    trivial
  case case17 =>
    simp only [evalN, bind] at h
    obtain ⟨w1, hw1, h⟩ := bindE_ok_inv h
    obtain ⟨w2, hw2, h⟩ := bindE_ok_inv h
    obtain ⟨x, rfl⟩ := evalIntCmp_shape h
    trivial
  case case18 =>
    simp only [evalN, bind] at h
    obtain ⟨w1, hw1, h⟩ := bindE_ok_inv h
    obtain ⟨w2, hw2, h⟩ := bindE_ok_inv h
    obtain ⟨x, rfl⟩ := evalIntCmp_shape h
    trivial
  case case19 =>
    simp only [evalN, bind] at h
    obtain ⟨w1, hw1, h⟩ := bindE_ok_inv h
    obtain ⟨w2, hw2, h⟩ := bindE_ok_inv h
    obtain ⟨x, rfl⟩ := evalIntOp_shape h
    trivial
  case case20 =>
    simp only [evalN, bind] at h
    obtain ⟨w1, hw1, h⟩ := bindE_ok_inv h
    obtain ⟨w2, hw2, h⟩ := bindE_ok_inv h
    obtain ⟨x, rfl⟩ := evalIntOp_shape h
    trivial
  case case21 =>
    simp only [evalN, bind] at h
    obtain ⟨w1, hw1, h⟩ := bindE_ok_inv h
    obtain ⟨w2, hw2, h⟩ := bindE_ok_inv h
    obtain ⟨x, rfl⟩ := evalIntOp_shape h
    trivial
  case case22 =>
    simp only [evalN, bind] at h
    obtain ⟨w, hw, h⟩ := bindE_ok_inv h
    split at h
    · obtain ⟨w2, hw2, h⟩ := bindE_ok_inv h
      injection h with h
      subst h
      trivial
    · exact Except.noConfusion h
  case case23 =>
    simp only [evalN, bind] at h
    obtain ⟨w1, hw1, h⟩ := bindE_ok_inv h
    obtain ⟨w2, hw2, h⟩ := bindE_ok_inv h
    split at h <;>
      first
      | (injection h with h; subst h; trivial)
      | exact Except.noConfusion h
  case case24 =>
    simp only [evalN, bind] at h
    obtain ⟨w1, hw1, h⟩ := bindE_ok_inv h
    obtain ⟨w2, hw2, h⟩ := bindE_ok_inv h
    split at h <;>
      first
      | (injection h with h; subst h; trivial)
      | exact Except.noConfusion h
  case case25 =>
    simp only [evalN, bind] at h
    obtain ⟨w, hw, h⟩ := bindE_ok_inv h
    split at h
    · injection h with h; subst h; trivial
    · exact Except.noConfusion h
  case case26 =>
    simp only [evalN, bind] at h
    obtain ⟨w1, hw1, h⟩ := bindE_ok_inv h
    obtain ⟨w2, hw2, h⟩ := bindE_ok_inv h
    split at h <;>
      first
      | (injection h with h; subst h; trivial)
      | exact Except.noConfusion h
  case case27 =>
    rename_i c t e ihc iht ihe
    obtain ⟨hnc, hnt, hne⟩ := hn
    simp only [evalN, bind] at h
    obtain ⟨w, hw, h⟩ := bindE_ok_inv h
    split at h
    · exact iht hnt v h
    · exact ihe hne v h
    · exact Except.noConfusion h
  case case28 =>
    rename_i entries ih
    simp only [evalN, bind] at h
    obtain ⟨fs, hfs, h⟩ := bindE_ok_inv h
    injection h with h
    subst h
    exact ih hn fs hfs
  case case29 =>
    rename_i elems ih
    simp only [evalN, bind] at h
    obtain ⟨vs, hvs, h⟩ := bindE_ok_inv h
    injection h with h
    subst h
    exact ih hn vs hvs
  case case30 =>
    simp only [evalN] at h
    exact Except.noConfusion h
  case case31 =>
    simp only [evalN] at h
    exact Except.noConfusion h
  case case32 =>
    simp only [evalN] at h
    exact Except.noConfusion h
  case case33 =>
    simp only [evalN] at h
    exact Except.noConfusion h
  case case34 =>
    simp only [evalN] at h
    exact Except.noConfusion h
  case case35 =>
    simp only [evalFieldList] at h
    injection h with h
    subst h
    trivial
  case case36 =>
    rename_i k nd rest ihn ihr
    obtain ⟨hn1, hn2⟩ := hn
    simp only [evalFieldList, bind] at h
    obtain ⟨w, hw, h⟩ := bindE_ok_inv h
    obtain ⟨ws, hws, h⟩ := bindE_ok_inv h
    injection h with h
    subst h
    exact ⟨ihn hn1 w hw, ihr hn2 ws hws⟩
  case case37 =>
    simp only [evalNodeList] at h
    injection h with h
    subst h
    trivial
  case case38 =>
    rename_i nd rest ihn ihr
    obtain ⟨hn1, hn2⟩ := hn
    simp only [evalNodeList, bind] at h
    obtain ⟨w, hw, h⟩ := bindE_ok_inv h
    obtain ⟨ws, hws, h⟩ := bindE_ok_inv h
    injection h with h
    subst h
    exact ⟨ihn hn1 w hw, ihr hn2 ws hws⟩

/-- Arity well-formedness of a node for the amended placeholder claim: no
JSON-containment operator (`contains`/`containsAll`/`containsAny`/`in`,
whose templates escape `??`), `?`-free access/has field names, and `?`-free
embedded literals throughout. -/
def nodeWf : Node → Prop
  | .value v => vQF v
  | .var _ => True
  | .access a f => charQ f = 0 ∧ nodeWf a
  | .has a f => charQ f = 0 ∧ nodeWf a
  | .not a => nodeWf a
  | .isEmpty a => nodeWf a
  | .and l r => nodeWf l ∧ nodeWf r
  | .or l r => nodeWf l ∧ nodeWf r
  | .eq l r => nodeWf l ∧ nodeWf r
  | .ne l r => nodeWf l ∧ nodeWf r
  | .gt l r => nodeWf l ∧ nodeWf r
  | .ge l r => nodeWf l ∧ nodeWf r
  | .lt l r => nodeWf l ∧ nodeWf r
  | .le l r => nodeWf l ∧ nodeWf r
  | .add l r => nodeWf l ∧ nodeWf r
  | .sub l r => nodeWf l ∧ nodeWf r
  | .mult l r => nodeWf l ∧ nodeWf r
  | .contains _ _ => False
  | .containsAll _ _ => False
  | .containsAny _ _ => False
  | .inn _ _ => False
  | .getTag l r => nodeVals l ∧ nodeVals r
  | .like a _ => nodeVals a
  | .ifThenElse c t e => nodeVals c ∧ nodeVals t ∧ nodeVals e
  | .is a _ => nodeVals a
  | .isIn a e => nodeVals a ∧ nodeVals e
  | .negate a => nodeVals a
  | .record entries => nodeValsFields entries
  | .set elems => nodeValsList elems
  | .extensionCall _ => True

/-- `nodeWf` implies `nodeVals`. -/
theorem nodeWf_vals : ∀ n, nodeWf n → nodeVals n := by
  intro n
  induction n using nodeWf.induct
  all_goals intro h
  all_goals
    first
    | exact h
    | exact h.elim
    | trivial
    | (rename_i ih; exact ih h)
    | (rename_i ih; exact ih h.2)
    | (rename_i ihl ihr; exact ⟨ihl h.1, ihr h.2⟩)

/-- The well-formedness invariant on reducer results: the carried sqlizer is
arity-well-formed and the carried value is `?`-free. -/
def RWf (r : Result) : Prop :=
  wfS r.sqlizer ∧ ∀ v, r.value = some v → vQF v

/-- A `?`-free value that is recognised as a variable has a `?`-free name. -/
theorem toVariable_vQF {w : Value} {name : Str} (hw : vQF w)
    (h : toVariable w = some name) : charQ name = 0 := by
  unfold toVariable at h
  split at h
  · rename_i ty id
    split at h
    · injection h with h
      subst h
      exact hw (by assumption)
    · exact Option.noConfusion h
  · exact Option.noConfusion h

/-- A nil sqlizer is arity-well-formed. -/
theorem wfS_null : wfS Sqlizer.null := by simp [wfS]

/-- A binary conjunction of well-formed sqlizers with `?`-free separator and
identity is well-formed. -/
theorem wfS_conj2 {a b : Sqlizer} (ha : wfS a) (hb : wfS b) {sep dflt : Str}
    (hsep : charQ sep = 0) (hdflt : charQ dflt = 0) :
    wfS (.conj [a, b] sep dflt) := by
  simp only [wfS, wfConjList]
  exact ⟨hsep, hdflt, ha, hb, trivial⟩

/-- `valueToResult` preserves the well-formedness invariant: a variable
sentinel is rewrapped as a `?`-free one-word template with no arguments. -/
theorem valueToResult_wf {b : Bool} {v : Option Value} {s : Sqlizer} {r : Result}
    (hv : ∀ w, v = some w → vQF w) (hs : wfS s)
    (h : valueToResult b v s = .ok r) : RWf r := by
  unfold valueToResult at h
  cases v with
  | none =>
    injection h with h
    subst h
    exact ⟨hs, fun w hw => Option.noConfusion hw⟩
  | some w =>
    cases htv : toVariable w with
    | none =>
      simp only [htv] at h
      injection h with h
      subst h
      exact ⟨hs, fun w' hw' => by injection hw' with hw'; subst hw'; exact hv w rfl⟩
    | some name =>
      simp only [htv, bind, Except.bind] at h
      cases hE : Expr name [] with
      | error e => rw [hE] at h; exact Except.noConfusion h
      | ok ex =>
        rw [hE] at h
        injection h with h
        subst h
        rw [Expr_ok hE]
        have hq : charQ name = 0 := toVariable_vQF (hv w rfl) htv
        refine ⟨⟨noQQ_of_charQ_zero hq, by simpa using hq, trivial⟩, ?_⟩
        exact fun w' hw' => by injection hw' with hw'; subst hw'; exact hv w rfl

/-- A binary `AndExpr` of well-formed sqlizers is well-formed. -/
theorem wfS_AndExpr2 {a b : Sqlizer} (ha : wfS a) (hb : wfS b) :
    wfS (AndExpr [a, b]) := wfS_conj2 ha hb rfl rfl

/-- A binary `OrExpr` of well-formed sqlizers is well-formed. -/
theorem wfS_OrExpr2 {a b : Sqlizer} (ha : wfS a) (hb : wfS b) :
    wfS (OrExpr [a, b]) := wfS_conj2 ha hb rfl rfl

/-- `result.And`'s fall-through preserves well-formedness. -/
theorem Result.andRight_wf {l r res : Result} (hl : RWf l) (hr : RWf r)
    (h : Result.andRight l r = .ok res) : RWf res := by
  unfold Result.andRight at h
  split at h
  · split at h
    · exact Except.noConfusion h
    · injection h with h; subst h; exact hl
    · exact valueToResult_wf (fun w hw => Option.noConfusion hw)
        (wfS_AndExpr2 hl.1 hr.1) h
  · exact valueToResult_wf (fun w hw => Option.noConfusion hw)
      (wfS_AndExpr2 hl.1 hr.1) h

/-- `result.And` preserves well-formedness. -/
theorem Result.and_wf {l r res : Result} (hl : RWf l) (hr : RWf r)
    (h : Result.and l r = .ok res) : RWf res := by
  unfold Result.and at h
  split at h
  · split at h
    · exact Except.noConfusion h
    · injection h with h; subst h; exact hr
    · exact Result.andRight_wf hl hr h
  · exact Result.andRight_wf hl hr h

/-- `result.Or`'s fall-through preserves well-formedness. -/
theorem Result.orRight_wf {l r res : Result} (hl : RWf l) (hr : RWf r)
    (h : Result.orRight l r = .ok res) : RWf res := by
  unfold Result.orRight at h
  split at h
  · split at h
    · exact Except.noConfusion h
    · injection h with h; subst h; exact hl
    · exact valueToResult_wf (fun w hw => Option.noConfusion hw)
        (wfS_OrExpr2 hl.1 hr.1) h
  · exact valueToResult_wf (fun w hw => Option.noConfusion hw)
      (wfS_OrExpr2 hl.1 hr.1) h

/-- `result.Or` preserves well-formedness. -/
theorem Result.or_wf {l r res : Result} (hl : RWf l) (hr : RWf r)
    (h : Result.or l r = .ok res) : RWf res := by
  unfold Result.or at h
  split at h
  · split at h
    · exact Except.noConfusion h
    · injection h with h; subst h; exact hr
    · exact Result.orRight_wf hl hr h
  · exact Result.orRight_wf hl hr h

/-- A two-argument emission over an escape-free binary template preserves
well-formedness (the template's `?` count is checked by `Expr`). -/
theorem valueToResult_expr2_wf {t : Str} {a b : EArg} {r : Result}
    (hq : noQQ t) (ha : wfArgs [a, b])
    (h : Except.bind (Expr t [a, b]) (fun e => valueToResult false none e) = .ok r) :
    RWf r := by
  obtain ⟨ex, hE, h⟩ := bind_ok_inv h
  have hcp : countPlaceholders t = 2 := by
    unfold Expr at hE
    split at hE
    · simpa using (by assumption : countPlaceholders t = [a, b].length)
    · exact Except.noConfusion hE
  rw [Expr_ok hE] at h
  refine valueToResult_wf (fun w hw => Option.noConfusion hw) ?_ h
  refine ⟨hq, ?_, ha⟩
  rw [← countPlaceholders_of_noQQ t hq]
  simpa using hcp

/-- `result.Compare` preserves well-formedness for escape-free templates. -/
theorem Result.compare_wf {l r res : Result} {t : Str}
    (hl : RWf l) (hr : RWf r) (h : Result.compare l r t = .ok res) (hq : noQQ t) :
    RWf res := by
  unfold Result.compare at h
  split at h
  · simp only [bind] at h
    obtain ⟨arg, _, h⟩ := bind_ok_inv h
    exact valueToResult_expr2_wf hq (by simpa [wfArgs] using hr.1) h
  · split at h
    · simp only [bind] at h
      obtain ⟨arg, _, h⟩ := bind_ok_inv h
      exact valueToResult_expr2_wf hq (by simpa [wfArgs] using hl.1) h
    · simp only [bind] at h
      exact valueToResult_expr2_wf hq (by simp [wfArgs]; exact ⟨hl.1, hr.1⟩) h

/-- A successful `nodeToValue` is a successful evaluation. -/
theorem nodeToValue_ok {n : Node} {env : Env} {v : Value}
    (h : nodeToValue n env = .ok v) : evalN env n = .ok v := by
  unfold nodeToValue at h
  cases he : evalN env n with
  | error e =>
    rw [he] at h
    simp [Except.mapError] at h
  | ok w =>
    rw [he] at h
    simp only [Except.mapError] at h
    injection h with h
    rw [h]

/-- A concrete re-entry into the evaluator produces a well-formed result on
`?`-free input. -/
theorem valueToResult_val_wf {env : Env} (he : envQF env) {n : Node} {r : Result}
    (h : Except.bind (nodeToValue n env)
      (fun val => valueToResult true (some val) .null) = .ok r)
    (hn : nodeVals n) : RWf r := by
  obtain ⟨val, hval, h⟩ := bind_ok_inv h
  have hv : vQF val := evalN_vQF env he n hn val (nodeToValue_ok hval)
  exact valueToResult_wf (fun w hw => by injection hw with hw; subst hw; exact hv)
    wfS_null h

/-- The binary node kinds whose emitted templates are escape-free (the
JSON-containment operators escape `??` and are excluded). -/
def arityOk : Node → Prop
  | .contains _ _ => False
  | .containsAll _ _ => False
  | .containsAny _ _ => False
  | _ => True

/-- The binary dispatch preserves well-formedness away from the
JSON-containment operators. -/
theorem toSqlBinaryTail_wf {node : Node} {lR rR : Result} {env : Env} {r : Result}
    (he : envQF env) (hl : RWf lR) (hr : RWf rR)
    (h : toSqlBinaryTail node lR rR env = .ok r)
    (hok : arityOk node) (hvals : nodeVals node) : RWf r := by
  unfold toSqlBinaryTail at h
  split at h
  · simp only [bind] at h
    exact valueToResult_val_wf he h hvals
  · split at h
    case _ => exact Result.and_wf hl hr h
    case _ => exact Result.or_wf hl hr h
    all_goals
      first
      | exact Result.compare_wf hl hr h (noQQ_of_countPlaceholders_eq _ rfl)
      | exact False.elim hok
      | exact Except.noConfusion h

/-- `toAccess`'s tail preserves well-formedness: the mapped path keeps the
rendered path's `?` count. -/
theorem toAccessTail_wf {aR : Result} {f : Str} {env : Env} {m : Mapper} {r : Result}
    (he : envQF env) (hm : MapQ m) (hf : charQ f = 0) (ha : RWf aR)
    (h : toAccessTail aR f env m = .ok r) : RWf r := by
  unfold toAccessTail at h
  split at h
  · split at h
    · rename_i v hvv
      simp only [bind] at h
      exact valueToResult_val_wf he h (ha.2 v hvv)
    · exact Except.noConfusion h
  · split at h
    · exact Except.noConfusion h
    · exact Except.noConfusion h
    · rename_i sql args hrend
      split at h
      · exact Except.noConfusion h
      · rename_i field' hmap
        have hwfc : wfS (.concat [.sqlizer aR.sqlizer, .str ".".toList, .cstr f]) :=
          ⟨ha.1, rfl, hf, trivial⟩
        obtain ⟨hcq, hwa⟩ := render_arity hwfc hrend
        have hfq : charQ field' = args.length := by
          rw [hm sql field' hmap]
          exact hcq
        refine valueToResult_wf (fun w hw => Option.noConfusion hw) ?_ h
        exact ⟨hfq, hwa⟩

/-- `toSqlHas`'s tail preserves well-formedness: `Expr`'s arity check plus
the mapper's `?`-count preservation make the mapped path escape-free. -/
theorem toSqlHasTail_wf {aR : Result} {f : Str} {env : Env} {m : Mapper} {r : Result}
    (he : envQF env) (hm : MapQ m) (hf : charQ f = 0) (ha : RWf aR)
    (h : toSqlHasTail aR f env m = .ok r) : RWf r := by
  unfold toSqlHasTail at h
  split at h
  · split at h
    · rename_i v hvv
      simp only [bind] at h
      exact valueToResult_val_wf he h (ha.2 v hvv)
    · exact Except.noConfusion h
  · split at h
    · exact Except.noConfusion h
    · exact Except.noConfusion h
    · rename_i sql args hrend
      split at h
      · exact Except.noConfusion h
      · rename_i field' hmap
        simp only [bind] at h
        obtain ⟨inner, hinner, h⟩ := bind_ok_inv h
        obtain ⟨outer, houter, h⟩ := bind_ok_inv h
        have hwfc : wfS (.concat [.sqlizer aR.sqlizer, .str ".".toList, .cstr f]) :=
          ⟨ha.1, rfl, hf, trivial⟩
        obtain ⟨hcq, hwa⟩ := render_arity hwfc hrend
        have hfq : charQ field' = args.length := by
          rw [hm sql field' hmap]
          exact hcq
        have hcp : countPlaceholders field' = args.length := by
          unfold Expr at hinner
          split at hinner
          · assumption
          · exact Except.noConfusion hinner
        have hnq : noQQ field' := noQQ_of_countPlaceholders_eq _ (by omega)
        rw [Expr_ok houter] at h
        refine valueToResult_wf (fun w hw => Option.noConfusion hw) ?_ h
        rw [Expr_ok hinner]
        exact ⟨noQQ_of_countPlaceholders_eq _ rfl, rfl, ⟨hnq, hfq, hwa⟩, trivial⟩

/-- `toSqlNot`'s tail preserves well-formedness. -/
theorem toSqlNotTail_wf {aR : Result} {env : Env} {r : Result} (he : envQF env)
    (ha : RWf aR) (h : toSqlNotTail aR env = .ok r) : RWf r := by
  unfold toSqlNotTail at h
  split at h
  · split at h
    · rename_i v hvv
      simp only [bind] at h
      exact valueToResult_val_wf he h (ha.2 v hvv)
    · exact Except.noConfusion h
  · simp only [bind] at h
    obtain ⟨ex, hE, h⟩ := bind_ok_inv h
    rw [Expr_ok hE] at h
    refine valueToResult_wf (fun w hw => Option.noConfusion hw) ?_ h
    exact ⟨noQQ_of_countPlaceholders_eq _ rfl, rfl, ha.1, trivial⟩

/-- `toSqlEmpty`'s tail preserves well-formedness. -/
theorem toSqlEmptyTail_wf {aR : Result} {env : Env} {r : Result} (he : envQF env)
    (ha : RWf aR) (h : toSqlEmptyTail aR env = .ok r) : RWf r := by
  unfold toSqlEmptyTail at h
  split at h
  · split at h
    · rename_i v hvv
      simp only [bind] at h
      exact valueToResult_val_wf he h (ha.2 v hvv)
    · exact Except.noConfusion h
  · simp only [bind] at h
    obtain ⟨ex, hE, h⟩ := bind_ok_inv h
    rw [Expr_ok hE] at h
    refine valueToResult_wf (fun w hw => Option.noConfusion hw) ?_ h
    exact ⟨noQQ_of_countPlaceholders_eq _ rfl, rfl, ha.1, trivial⟩

/-- `toSqlVariable` yields a well-formed result on a `?`-free environment. -/
theorem toSqlVariableR_wf {name : Str} {env : Env} {r : Result} (he : envQF env)
    (h : toSqlVariableR name env = .ok r) : RWf r := by
  unfold toSqlVariableR at h
  simp only [bind] at h
  exact valueToResult_val_wf he h True.intro

/-- On `?`-free environments, count-preserving mappers and arity-well-formed
nodes, the reducer only produces well-formed results. -/
theorem toSqlOrValue_wf (env : Env) (m : Mapper) (he : envQF env) (hm : MapQ m) :
    ∀ node r, nodeWf node → toSqlOrValue env m node = .ok r → RWf r := by
  intro node
  induction node using toSqlOrValue.induct
  case env => exact env
  case mapper => exact m
  all_goals intro r hn h
  all_goals simp only [toSqlOrValue, bind, reduceIte] at h
  all_goals try split at h
  all_goals
    first
    | exact Except.noConfusion h
    | exact toSqlVariableR_wf he h
    | exact False.elim hn
    | (refine valueToResult_wf ?_ wfS_null h
       intro w hw
       injection hw with hw
       subst hw
       exact hn)
    | exact valueToResult_val_wf he h hn
    | exact valueToResult_val_wf he h True.intro
    | (obtain ⟨aR, haR, h⟩ := bind_ok_inv h
       first
       | (have haw : RWf aR := by solve_by_elim
          first
          | exact toSqlNotTail_wf he haw h
          | exact toSqlEmptyTail_wf he haw h)
       | (obtain ⟨hf, hna⟩ := hn
          have haw : RWf aR := by solve_by_elim
          first
          | exact toAccessTail_wf he hm hf haw h
          | exact toSqlHasTail_wf he hm hf haw h)
       | (obtain ⟨hn1, hn2⟩ := hn
          obtain ⟨rR, hrR, h⟩ := bind_ok_inv h
          have hwl : RWf aR := by solve_by_elim
          have hwr : RWf rR := by solve_by_elim
          exact toSqlBinaryTail_wf he hwl hwr h True.intro
            ⟨nodeWf_vals _ hn1, nodeWf_vals _ hn2⟩))

/-- Claim C5 (amended): placeholder/argument arity holds for every `ToSql`
success once the inputs avoid the escaping JSON-containment operators — the
node is `contains`/`in`-free with `?`-free field names and literals, the
environment's variable names and stored values are `?`-free, and the mapper
preserves `?` counts.  Then the number of `?` characters in the returned SQL
equals the number of arguments. -/
theorem placeholder_arity_amended {node : Node} {env : Env} {m : Mapper}
    {sql : Str} {args : List EArg}
    (h : toSql node env m = .res sql args none)
    (he : envQF env) (hm : MapQ m) (hn : nodeWf node) :
    charQ sql = args.length := by
  unfold toSql at h
  split at h
  · exact RendRes.noConfusion h
  · injection h with h1 h2 h3
    exact Option.noConfusion h3
  · rename_i rr hred
    split at h
    · split at h
      · injection h with h1 h2 h3
        subst h1
        subst h2
        rfl
      · injection h with h1 h2 h3
        subst h1
        subst h2
        rfl
      · injection h with h1 h2 h3
        exact Option.noConfusion h3
    · have hrwf : RWf rr := toSqlOrValue_wf env m he hm node rr hn hred
      exact (render_arity hrwf.1 h).1

/-- Witness for C5's amended theorem: an equality node under the
documentation's context environment renders to `"context.foo = ?"` with one
argument, and one `?`. -/
theorem placeholder_arity_amended_witness :
    toSql (.eq ctxFoo (.value (.str "bar".toList))) ctxEnv defaultFieldMapper =
      .res "context.foo = ?".toList [.scalar (.str "bar".toList)] none ∧
    charQ "context.foo = ?".toList = [EArg.scalar (GoVal.str "bar".toList)].length :=
  ⟨rfl,
    @placeholder_arity_amended (.eq ctxFoo (.value (.str "bar".toList))) ctxEnv
      defaultFieldMapper "context.foo = ?".toList [.scalar (.str "bar".toList)]
      rfl
      ⟨fun _ => rfl, fun _ => rfl, fun _ => rfl, fun _ => rfl, by simp [ctxEnv]⟩
      (fun s t ht => by injection ht with ht; rw [ht])
      ⟨⟨rfl, trivial⟩, trivial⟩⟩

end CedarSqlizer
